import Mathlib

/-!
# termle: a terminal word-guessing game

A shallow embedding of `termle.go` and theorems about its turn evaluation,
its game-state bookkeeping, its guess validation, its answer lookup and its
day-index computation.

Modelling conventions.

* A Go `string` that holds text is a Lean `String`: its runes are the
  characters `s.data`, its bytes are their UTF-8 encoding `bytesOf s`. The
  program indexes the answer by bytes and walks a guess rune by rune at byte
  offsets; so does the model. A line of input and the two embedded files are
  text.
* A Go `int` is an `Int`; arithmetic on it goes through `wrapInt` (64-bit
  two's complement wrap-around).
* A Go panic (index out of range, a failed `Seek` or `Read`) is `none`.
* The two embedded files and the upper-case table of Go's `unicode` package
  are not part of `termle.go`; they are parameters.
-/

namespace Termle

/-! ## Constants -/

/-- The constant `totalWordles`. -/
def totalWordles : Nat := 2315

/-- The constant `blackSquare`. -/
def blackSquare : String := "⬛"

/-- The constant `yellowSquare`. -/
def yellowSquare : String := "🟨"

/-- The constant `greenSquare`. -/
def greenSquare : String := "🟩"

/-- Go `int` arithmetic: the 64-bit two's complement value of `x`. -/
def wrapInt (x : Int) : Int := (x + 2 ^ 63) % 2 ^ 64 - 2 ^ 63

/-! ## ANSI colouring -/

/-- Source function `green`: `"\033[37;102m" + l + "\033[0m"`. -/
def green (l : String) : String := "\x1b[37;102m" ++ l ++ "\x1b[0m"

/-- Source function `yellow`: `"\033[37;103m" + l + "\033[0m"`. -/
def yellow (l : String) : String := "\x1b[37;103m" ++ l ++ "\x1b[0m"

/-- Source function `white`: `"\033[0;107m" + l + "\033[0m"`. -/
def white (l : String) : String := "\x1b[0;107m" ++ l ++ "\x1b[0m"

/-- Source function `black`: `"\033[37;100m" + l + "\033[0m"`. -/
def black (l : String) : String := "\x1b[37;100m" ++ l ++ "\x1b[0m"

/-! ## Library functions used by the program -/

/-- Go `utf8.EncodeRune`: the UTF-8 bytes of a rune. -/
def EncodeRune (r : Char) : List Nat :=
  let n := r.toNat
  if n < 0x80 then [n]
  else if n < 0x800 then [0xC0 + n / 64, 0x80 + n % 64]
  else if n < 0x10000 then [0xE0 + n / 4096, 0x80 + n / 64 % 64, 0x80 + n % 64]
  else [0xF0 + n / 262144, 0x80 + n / 4096 % 64, 0x80 + n / 64 % 64, 0x80 + n % 64]

/-- The bytes of a string, `[]byte(s)`: what `s[i]` and `len(s)` read. -/
def bytesOf (s : String) : List Nat := s.data.flatMap EncodeRune

/-- Go `utf8.RuneError`, the rune U+FFFD that stands for a byte that is not
UTF-8. -/
def RuneError : Nat := 0xFFFD

/-- Go `utf8.DecodeRune`: the first rune of a byte sequence and its width. A
first byte below `0x80` is the rune; a first byte between `0xC2` and `0xF4`
announces one to three more bytes, the second inside a range that depends on
the first, the others between `0x80` and `0xBF`; everything else is
`RuneError` of width 1. -/
def DecodeRune (p : List Nat) : Nat × Nat :=
  match p with
  | [] => (RuneError, 0)
  | p0 :: rest =>
    if p0 < 0x80 then (p0, 1)
    else
      let sz : Nat :=
        if 0xC2 ≤ p0 ∧ p0 ≤ 0xDF then 2
        else if 0xE0 ≤ p0 ∧ p0 ≤ 0xEF then 3
        else if 0xF0 ≤ p0 ∧ p0 ≤ 0xF4 then 4
        else 0
      let lo : Nat := if p0 = 0xE0 then 0xA0 else if p0 = 0xF0 then 0x90 else 0x80
      let hi : Nat := if p0 = 0xED then 0x9F else if p0 = 0xF4 then 0x8F else 0xBF
      if sz = 0 then (RuneError, 1)
      else if rest.length + 1 < sz then (RuneError, 1)
      else
        match rest with
        | [] => (RuneError, 1)
        | p1 :: rest1 =>
          if p1 < lo ∨ hi < p1 then (RuneError, 1)
          else if sz ≤ 2 then (p0 % 32 * 64 + p1 % 64, 2)
          else
            match rest1 with
            | [] => (RuneError, 1)
            | p2 :: rest2 =>
              if p2 < 0x80 ∨ 0xBF < p2 then (RuneError, 1)
              else if sz ≤ 3 then (p0 % 16 * 4096 + p1 % 64 * 64 + p2 % 64, 3)
              else
                match rest2 with
                | [] => (RuneError, 1)
                | p3 :: _ =>
                  if p3 < 0x80 ∨ 0xBF < p3 then (RuneError, 1)
                  else (p0 % 8 * 262144 + p1 % 64 * 4096 + p2 % 64 * 64 + p3 % 64, 4)

/-- The runes that `for _, c := range string(p)` visits in the bytes `p`, with
`skip` bytes of the rune before still to pass: every byte that is not UTF-8 is
one `RuneError`. -/
def rangeRunes : List Nat → Nat → List Char
  | [], _ => []
  | p0 :: rest, 0 =>
    Char.ofNat (DecodeRune (p0 :: rest)).1 :: rangeRunes rest ((DecodeRune (p0 :: rest)).2 - 1)
  | _ :: rest, skip + 1 => rangeRunes rest skip

/-- Go `unicode.ToUpper`: the ASCII range is handled inline, every other rune
goes through the case table `upperCase` of the `unicode` package. -/
def unicodeToUpper (upperCase : Char → Char) (r : Char) : Char :=
  if r.toNat ≤ 0x7F then
    if 'a'.toNat ≤ r.toNat ∧ r.toNat ≤ 'z'.toNat then Char.ofNat (r.toNat - ('a'.toNat - 'A'.toNat))
    else r
  else upperCase r

/-- Go `strings.ToUpper`: every rune mapped through `unicode.ToUpper`. -/
def ToUpper (upperCase : Char → Char) (s : String) : String :=
  ⟨s.data.map (unicodeToUpper upperCase)⟩

/-- Go `strings.ToUpper(string(p))` for a byte slice `p`: the runes of `p`, a
`RuneError` for every byte that is not UTF-8, mapped through
`unicode.ToUpper`. The result is text. -/
def ToUpperBytes (upperCase : Char → Char) (p : List Nat) : String :=
  ⟨(rangeRunes p 0).map (unicodeToUpper upperCase)⟩

/-- Go `unicode.IsSpace`: the Latin-1 cases, then the `White_Space` table. -/
def unicodeIsSpace (r : Char) : Bool :=
  if r.toNat ≤ 0xFF then
    r = '\t' ∨ r = '\n' ∨ r.toNat = 0x0B ∨ r.toNat = 0x0C ∨ r = '\r' ∨ r = ' ' ∨
      r.toNat = 0x85 ∨ r.toNat = 0xA0
  else
    r.toNat = 0x1680 ∨ (0x2000 ≤ r.toNat ∧ r.toNat ≤ 0x200A) ∨ r.toNat = 0x2028 ∨
      r.toNat = 0x2029 ∨ r.toNat = 0x202F ∨ r.toNat = 0x205F ∨ r.toNat = 0x3000

/-- Go `strings.TrimSpace`: leading and trailing white space removed. -/
def TrimSpace (s : String) : String :=
  ⟨((s.data.dropWhile unicodeIsSpace).reverse.dropWhile unicodeIsSpace).reverse⟩

/-- Go `strings.ContainsRune`. -/
def ContainsRune (s : String) (r : Char) : Bool := decide (r ∈ s.data)

/-- Go `strconv.Itoa`, also what `%v` prints for an `int`. -/
def Itoa (n : Int) : String := toString n

/-- One character of the class `[A-Za-z]`. -/
def isLetter (c : Char) : Bool :=
  ('A'.toNat ≤ c.toNat ∧ c.toNat ≤ 'Z'.toNat) ∨ ('a'.toNat ≤ c.toNat ∧ c.toNat ≤ 'z'.toNat)

/-- The call `valid.MatchString(s)` for `valid = regexp.MustCompile("^[A-Za-z]{5}$")`:
the whole text is exactly five characters of `[A-Za-z]`. -/
def validMatchString (s : String) : Bool :=
  s.data.length == 5 && s.data.all isLetter

/-! ## The game state -/

/-- Source type `game`. The fields `public` and `private` are named
`publicBoard` and `privateBoard`; `validGuesses`, a Go map used as a set, is a
list read through membership. -/
structure game where
  day : Int
  currentTurn : Int
  turnsRemaining : Int
  complete : Bool
  won : Bool
  answer : String
  validGuesses : List String
  publicBoard : List (List String)
  privateBoard : List (List String)
  deriving DecidableEq, Repr

/-! ## Word lists -/

/-- Source function `guessesSet`, over the lines the scanner reads from
`guesses.txt`: every line is upper-cased and put in the set. -/
def guessesSet (upperCase : Char → Char) (guessLines : List String) : List String :=
  guessLines.map (ToUpper upperCase)

/-- Source function `answerForDay`, over the content of `answers.txt`, read
through its bytes. `Seek(day*7)` fails on a byte offset that is negative or
past the end of the file, `Read` fails at the end of the file and otherwise
copies at most five bytes into the zeroed five-byte buffer; the buffer is then
made a string and upper-cased. -/
def answerForDay (upperCase : Char → Char) (answersFile : String) (day : Int) : Option String :=
  let data := bytesOf answersFile
  let offset := wrapInt (day * 7)
  if offset < 0 ∨ (data.length : Int) < offset then none
  else if (data.length : Int) ≤ offset then none
  else
    let got := (data.drop offset.toNat).take 5
    let answer := got ++ List.replicate (5 - got.length) 0
    some (ToUpperBytes upperCase answer)

/-- Source function `randomDay` for the value `r` that `rand.Intn(totalWordles)`
draws: the day is `r` itself, and `rand.Intn` draws from `[0, totalWordles)`. -/
def randomDay (r : Fin totalWordles) : Int := (r.val : Int)

/-! ## Starting a game and adding a guess -/

/-- Source function `newGame`: six rows of five `black("_")` cells, an empty
score board, six turns left. It fails when `answerForDay` does. -/
def newGame (upperCase : Char → Char) (answersFile : String) (guessLines : List String)
    (day : Int) : Option game :=
  match answerForDay upperCase answersFile day with
  | none => none
  | some answer =>
    some
      { day := day
        currentTurn := 0
        turnsRemaining := 6
        complete := false
        won := false
        answer := answer
        validGuesses := guessesSet upperCase guessLines
        publicBoard := List.replicate 6 (List.replicate 5 (black "_"))
        privateBoard := [] }

/-- The assignment `g.public[g.currentTurn][i] = v`; out of range is a panic. -/
def setCell (board : List (List String)) (turn : Int) (i : Nat) (v : String) :
    Option (List (List String)) :=
  if turn < 0 then none
  else
    match board[turn.toNat]? with
    | none => none
    | some row => if i < row.length then some (board.set turn.toNat (row.set i v)) else none

/-- The assignment `private[i] = v`; out of range is a panic. -/
def setSquare (row : List String) (i : Nat) (v : String) : Option (List String) :=
  if i < row.length then some (row.set i v) else none

/-- The loop `for i, c := range guess` of `addGuess`, from byte offset `i` on,
over the remaining runes of the guess: `g.answer[i]` is a byte of the answer,
and the next offset is `i` plus the width of `c`. -/
def addGuessLoop (answer : String) (turn : Int) :
    List Char → Nat → List (List String) → List String → Option (List (List String) × List String)
  | [], _, pub, priv => some (pub, priv)
  | c :: cs, i, pub, priv =>
    match (bytesOf answer)[i]? with
    | none => none
    | some a =>
      if c.toNat = a then
        match setCell pub turn i (green (String.singleton c)) with
        | none => none
        | some pub1 =>
          match setSquare priv i greenSquare with
          | none => none
          | some priv1 =>
            addGuessLoop answer turn cs (i + (EncodeRune c).length) pub1 priv1
      else if ContainsRune answer c then
        match setCell pub turn i (yellow (String.singleton c)) with
        | none => none
        | some pub1 =>
          match setSquare priv i yellowSquare with
          | none => none
          | some priv1 =>
            addGuessLoop answer turn cs (i + (EncodeRune c).length) pub1 priv1
      else
        match setCell pub turn i (black (String.singleton c)) with
        | none => none
        | some pub1 =>
          match setSquare priv i blackSquare with
          | none => none
          | some priv1 =>
            addGuessLoop answer turn cs (i + (EncodeRune c).length) pub1 priv1

/-- Source function `addGuess`. -/
def addGuess (g : game) (guess : String) : Option game :=
  match addGuessLoop g.answer g.currentTurn guess.data 0 g.publicBoard (List.replicate 5 "") with
  | none => none
  | some (pub, priv) =>
    let turnsRemaining := wrapInt (g.turnsRemaining - 1)
    let currentTurn := wrapInt (g.currentTurn + 1)
    some
      { g with
        publicBoard := pub
        privateBoard := g.privateBoard ++ [priv]
        turnsRemaining := turnsRemaining
        currentTurn := currentTurn
        complete := if guess = g.answer ∨ turnsRemaining = 0 then true else g.complete
        won := if guess = g.answer then true else g.won }

/-! ## Printing -/

/-- Source function `clearBoard`: the text it writes. -/
def clearBoard : String := "\x1bc"

/-- Source function `prompt`: the text it writes. -/
def prompt : String := ">"

/-- Source function `print`: the text it writes, the day line and then every
row of the public board, each cell after a blank. -/
def print (g : game) : String :=
  "Wordle " ++ Itoa g.day ++ "\n" ++
    String.join (g.publicBoard.map fun y => String.join (y.map fun x => " " ++ x) ++ "\n")

/-- Source function `printTurn`: the text it writes. -/
def printTurn (g : game) : String := clearBoard ++ print g ++ prompt

/-- Source function `printTurnWithError`: the text it writes. -/
def printTurnWithError (g : game) (err : String) : String :=
  clearBoard ++ print g ++ (err ++ "\n") ++ prompt

/-- The local `turnS` of `printScore`: the turn count of a won game, `X`
otherwise. -/
def turnS (g : game) : String := if g.won then Itoa g.currentTurn else "X"

/-- Source function `printScore`: the text it writes. -/
def printScore (g : game) : String :=
  (if g.won then "you won!\n" else "you lose!\n" ++ ("Answer was " ++ g.answer ++ "\n")) ++
    ("Wordle " ++ Itoa g.day ++ " " ++ turnS g ++ "/6\n\n") ++
    String.join (g.privateBoard.map fun y => String.join y ++ "\n")

/-! ## The input loop of `main` -/

/-- The body of the loop of `main` on one input line: the new state and the text
written. A rejected line leaves the state as it is. -/
def loopBody (upperCase : Char → Char) (g : game) (text : String) : Option (game × String) :=
  let guess := ToUpper upperCase (TrimSpace text)
  if !validMatchString guess then
    some (g, printTurnWithError g "Please enter a 5 letter word")
  else if !decide (guess ∈ g.validGuesses) then
    some (g, printTurnWithError g "Not in word list")
  else
    match addGuess g guess with
    | none => none
    | some g1 => some (g1, printTurn g1)

/-- The loop `for !g.complete && s.Scan()` of `main` over the lines of the
standard input: the final state and the text written. -/
def mainLoop (upperCase : Char → Char) : game → List String → Option (game × String)
  | g, [] => some (g, "")
  | g, text :: rest =>
    if g.complete then some (g, "")
    else
      match loopBody upperCase g text with
      | none => none
      | some (g1, out1) =>
        match mainLoop upperCase g1 rest with
        | none => none
        | some (g2, out2) => some (g2, out1 ++ out2)

/-- Source function `main` for a chosen day: the text written to the standard
output when the program ends normally. -/
def main (upperCase : Char → Char) (answersFile : String) (guessLines : List String)
    (day : Int) (stdin : List String) : Option String :=
  match newGame upperCase answersFile guessLines day with
  | none => none
  | some g =>
    match mainLoop upperCase g stdin with
    | none => none
    | some (g1, out) => some (printTurn g ++ out ++ printScore g1)

/-- The states of a game: `Reachable g0 ws g` says that `g` is what `addGuess`
makes of `g0` on the guesses `ws`, in that order, each one a five-letter word
given to a game that is not complete. (`main` hands `addGuess` only such words
that are also in the word list.) -/
inductive Reachable (g0 : game) : List String → game → Prop
  | start : Reachable g0 [] g0
  | turn {ws : List String} {g g1 : game} {guess : String} :
      Reachable g0 ws g → g.complete = false → validMatchString guess = true →
      addGuess g guess = some g1 → Reachable g0 (ws ++ [guess]) g1

/-! ## The day index -/

/-- Go `time` helper `isLeap`. -/
def isLeap (year : Int) : Bool := year % 4 == 0 && (year % 100 != 0 || year % 400 == 0)

/-- Go `time` table `daysBefore`: the days of a non-leap year before each month. -/
def daysBefore : List Int := [0, 31, 59, 90, 120, 151, 181, 212, 243, 273, 304, 334, 365]

/-- Go `time` helper `daysSinceEpoch`: the days before 1 January of `year`,
counted in cycles of 400, 100, 4 and 1 years. The library counts from a year
that is 1 modulo 400; year 1 is taken here, which shifts every result by one
constant and no difference of two results. -/
def daysSinceEpoch (year : Int) : Int :=
  let y := year - 1
  let n400 := y / 400
  let y1 := y - 400 * n400
  let n100 := y1 / 100
  let y2 := y1 - 100 * n100
  let n4 := y2 / 4
  let y3 := y2 - 4 * n4
  146097 * n400 + 36524 * n100 + 1461 * n4 + 365 * y3

/-- Go `time.Date(year, month, day, 0, 0, 0, 0, time.UTC)` for a date of the
calendar, as seconds: the days before the year, before the month (one more
from March on in a leap year) and before the day, times the seconds of a day. -/
def Date (year : Int) (month day : Nat) : Int :=
  let d := daysSinceEpoch year + daysBefore.getD (month - 1) 0 +
    (if isLeap year ∧ 3 ≤ month then 1 else 0) + ((day : Int) - 1)
  d * 86400

/-- Go `Time.Sub` on two times given in whole seconds: the difference in
nanoseconds, an `int64`, and the largest or smallest `Duration` when the
difference does not fit. -/
def Sub (t u : Int) : Int :=
  let d := (t - u) * 1000000000
  if -2 ^ 63 ≤ d ∧ d ≤ 2 ^ 63 - 1 then d
  else if t < u then -2 ^ 63
  else 2 ^ 63 - 1

/-- The expression `int(d.Hours() / 24)`: whole days of a duration, rounded
toward zero. The program computes it in `float64`; on the durations `Sub`
returns here, whole days and the two bounds of `Duration`, that computation
is exact or far from a whole number, so that it agrees with the integer
quotient. -/
def hoursOver24 (d : Int) : Int := Int.tdiv d (24 * 3600 * 1000000000)

/-- The variable `firstDay`: 19 June 2021, midnight UTC. -/
def firstDay : Int := Date 2021 6 19

/-- Source function `daysSinceFirstWordle`, for the calendar date
`year, month, day` that `time.Now().Date()` returns. -/
def daysSinceFirstWordle (year : Int) (month day : Nat) : Int :=
  let today := Date year month day
  hoursOver24 (Sub today firstDay)

/-! ## Definitions used to state and prove the theorems -/

/-- The cell that one round of the loop of `addGuess` writes on the public
board, for the answer byte `a` at the offset and the guess rune `c`. -/
def publicCell (answer : String) (a : Nat) (c : Char) : String :=
  if c.toNat = a then green (String.singleton c)
  else if ContainsRune answer c then yellow (String.singleton c)
  else black (String.singleton c)

/-- The square that one round of the loop of `addGuess` writes in the score
row. -/
def privateSquare (answer : String) (a : Nat) (c : Char) : String :=
  if c.toNat = a then greenSquare
  else if ContainsRune answer c then yellowSquare
  else blackSquare

/-- The row of cells of a guess of one-byte runes: position by position, against
the bytes of the answer. -/
def cellsRow (answer guess : String) : List String :=
  List.zipWith (publicCell answer) (bytesOf answer) guess.data

/-- The row of squares of a guess of one-byte runes: position by position,
against the bytes of the answer. -/
def squaresRow (answer guess : String) : List String :=
  List.zipWith (privateSquare answer) (bytesOf answer) guess.data

/-- The blank row of a new board. -/
def blankRow : List String := List.replicate 5 (black "_")

/-- What holds of every state of a game started in `g0`, after the guesses
`ws`. -/
structure Inv (g0 : game) (ws : List String) (g : game) : Prop where
  day : g.day = g0.day
  answer : g.answer = g0.answer
  guesses : g.validGuesses = g0.validGuesses
  len : ws.length ≤ 6
  bytes : ws ≠ [] → 5 ≤ (bytesOf g0.answer).length
  turn : g.currentTurn = (ws.length : Int)
  remaining : g.turnsRemaining = 6 - (ws.length : Int)
  pub : g.publicBoard =
    ws.map (cellsRow g0.answer) ++ List.replicate (6 - ws.length) blankRow
  priv : g.privateBoard = ws.map (squaresRow g0.answer)
  valid : ∀ w ∈ ws, validMatchString w = true
  lost : g.won = false → ∀ w ∈ ws, w ≠ g0.answer
  won : g.won = true → ws.getLast? = some g0.answer ∧ ∀ w ∈ ws.dropLast, w ≠ g0.answer
  complete : g.complete = true ↔ (g.won = true ∨ ws.length = 6)

/-- A game on the answer `CRANE`, as `newGame` starts it. -/
def craneGame : game :=
  { day := 0
    currentTurn := 0
    turnsRemaining := 6
    complete := false
    won := false
    answer := "CRANE"
    validGuesses := ["CRANE", "MAMMA", "HELLO"]
    publicBoard := List.replicate 6 (List.replicate 5 (black "_"))
    privateBoard := [] }

/-- The words "exactly 5 letters A-Z" of the specification. -/
def fiveLettersAZ (n : String) : Bool :=
  n.data.length == 5 && n.data.all fun c => decide ('A'.toNat ≤ c.toNat ∧ c.toNat ≤ 'Z'.toNat)

/-- A file of words, each followed by the line ending `eol`. -/
def answersText (eol : String) : List String → String
  | [] => ""
  | w :: rest => w ++ eol ++ answersText eol rest

/-- The number of days of a month of the calendar. -/
def daysIn (year : Int) (month : Nat) : Nat :=
  if month = 2 then (if isLeap year then 29 else 28)
  else if month = 4 ∨ month = 6 ∨ month = 9 ∨ month = 11 then 30
  else 31

/-- A date of the calendar. -/
def validDate (year : Int) (month day : Nat) : Prop :=
  1 ≤ month ∧ month ≤ 12 ∧ 1 ≤ day ∧ day ≤ daysIn year month

instance (year : Int) (month day : Nat) : Decidable (validDate year month day) := by
  unfold validDate
  infer_instance

/-- The day following a date of the calendar. -/
def nextDay (year : Int) (month day : Nat) : Int × Nat × Nat :=
  if day < daysIn year month then (year, month, day + 1)
  else if month < 12 then (year, month + 1, 1)
  else (year + 1, 1, 1)

/-- The first date is the second or comes before it in the calendar. -/
def dateLe (y1 : Int) (m1 d1 : Nat) (y2 : Int) (m2 d2 : Nat) : Prop :=
  y1 < y2 ∨ (y1 = y2 ∧ (m1 < m2 ∨ (m1 = m2 ∧ d1 ≤ d2)))

instance (y1 : Int) (m1 d1 : Nat) (y2 : Int) (m2 d2 : Nat) :
    Decidable (dateLe y1 m1 d1 y2 m2 d2) := by
  unfold dateLe
  infer_instance

/-- The day count of `Date`: the seconds of `Date` are this many days. -/
def dayNumber (year : Int) (month day : Nat) : Int :=
  daysSinceEpoch year + daysBefore.getD (month - 1) 0 +
    (if isLeap year ∧ 3 ≤ month then 1 else 0) + ((day : Int) - 1)

/-- The sample game after the guess `MAMMA`. -/
def craneMamma : game := (addGuess craneGame "MAMMA").getD craneGame

/-- The sample game after the guesses `MAMMA` and `CRANE`. -/
def craneWon : game := (addGuess craneMamma "CRANE").getD craneMamma

/-- A sample upper-case table: the dotless i goes to `I`, as in Go's table. -/
def dotlessTable : Char → Char := fun r => if r = 'ı' then 'I' else r

/-! # Theorems -/

/-! ## Bytes and runes of ASCII text -/

theorem EncodeRune_ascii (c : Char) (h : c.toNat < 128) : EncodeRune c = [c.toNat] := by
  simp [EncodeRune, h]

theorem EncodeRune_length_pos (c : Char) : 1 ≤ (EncodeRune c).length := by
  unfold EncodeRune
  simp only
  split_ifs <;> simp

theorem flatMap_EncodeRune_ascii (l : List Char) (h : ∀ c ∈ l, c.toNat < 128) :
    l.flatMap EncodeRune = l.map Char.toNat := by
  induction l with
  | nil => rfl
  | cons c cs ih =>
    rw [List.flatMap_cons, List.map_cons, EncodeRune_ascii c (h c (List.mem_cons_self _ _)),
      ih (fun x hx => h x (List.mem_cons_of_mem _ hx))]
    rfl

theorem bytesOf_ascii (s : String) (h : ∀ c ∈ s.data, c.toNat < 128) :
    bytesOf s = s.data.map Char.toNat :=
  flatMap_EncodeRune_ascii s.data h

theorem length_le_flatMap (l : List Char) : l.length ≤ (l.flatMap EncodeRune).length := by
  induction l with
  | nil => simp
  | cons c cs ih =>
    rw [List.flatMap_cons, List.length_append, List.length_cons]
    have := EncodeRune_length_pos c
    omega

theorem length_le_bytesOf (s : String) : s.data.length ≤ (bytesOf s).length :=
  length_le_flatMap s.data

theorem validMatchString_length (s : String) (h : validMatchString s = true) :
    s.data.length = 5 := by
  unfold validMatchString at h
  simp at h
  exact h.1

theorem validMatchString_ascii (s : String) (h : validMatchString s = true) :
    ∀ c ∈ s.data, c.toNat < 128 := by
  unfold validMatchString at h
  simp only [Bool.and_eq_true, List.all_eq_true] at h
  intro c hc
  have h1 := h.2 c hc
  have eZ : 'Z'.toNat = 90 := rfl
  have ez : 'z'.toNat = 122 := rfl
  simp only [isLetter, Bool.decide_or, Bool.or_eq_true, decide_eq_true_eq] at h1
  omega

theorem validMatchString_bytes (s : String) (h : validMatchString s = true) :
    bytesOf s = s.data.map Char.toNat ∧ (bytesOf s).length = 5 := by
  have hb := bytesOf_ascii s (validMatchString_ascii s h)
  refine ⟨hb, ?_⟩
  rw [hb, List.length_map, validMatchString_length s h]

theorem DecodeRune_ascii (b : Nat) (rest : List Nat) (h : b < 128) :
    DecodeRune (b :: rest) = (b, 1) := by
  simp [DecodeRune, h]

theorem rangeRunes_ascii (p : List Nat) (h : ∀ b ∈ p, b < 128) :
    rangeRunes p 0 = p.map Char.ofNat := by
  induction p with
  | nil => rfl
  | cons b rest ih =>
    rw [rangeRunes, DecodeRune_ascii b rest (h b (List.mem_cons_self _ _)), List.map_cons]
    simp only [Nat.sub_self]
    rw [ih (fun x hx => h x (List.mem_cons_of_mem _ hx))]

/-- On ASCII text the runes of the bytes are the characters. -/
theorem rangeRunes_bytesOf (s : String) (h : ∀ c ∈ s.data, c.toNat < 128) :
    rangeRunes (bytesOf s) 0 = s.data := by
  rw [bytesOf_ascii s h, rangeRunes_ascii]
  · rw [List.map_map]
    conv_rhs => rw [← List.map_id s.data]
    apply List.map_congr_left
    intro c _
    simp [Char.ofNat_toNat]
  · intro b hb
    obtain ⟨c, hc, rfl⟩ := List.mem_map.mp hb
    exact h c hc

/-! ## The loop of `addGuess` -/

theorem wrapInt_small (x : Int) (h1 : -1000 ≤ x) (h2 : x ≤ 1000) : wrapInt x = x := by
  unfold wrapInt
  omega

theorem set_same {α : Type} (l : List α) (t : Nat) (x : α) (h : l[t]? = some x) :
    l.set t x = l := by
  have hl : t < l.length := (List.getElem?_eq_some.mp h).1
  apply List.ext_getElem?
  intro n
  rw [List.getElem?_set]
  split
  · next heq =>
    subst heq
    simp [hl, h]
  · rfl

theorem addGuessLoop_cons (answer : String) (turn : Int) (c : Char) (cs : List Char) (i : Nat)
    (pub : List (List String)) (priv : List String) :
    addGuessLoop answer turn (c :: cs) i pub priv =
      match (bytesOf answer)[i]? with
      | none => none
      | some a =>
        match setCell pub turn i (publicCell answer a c) with
        | none => none
        | some pub1 =>
          match setSquare priv i (privateSquare answer a c) with
          | none => none
          | some priv1 =>
            addGuessLoop answer turn cs (i + (EncodeRune c).length) pub1 priv1 := by
  rw [addGuessLoop]
  cases (bytesOf answer)[i]? with
  | none => rfl
  | some a =>
    simp only [publicCell, privateSquare]
    split_ifs <;> rfl

theorem setCell_ok (pub : List (List String)) (t i : Nat) (row : List String) (v : String)
    (hrow : pub[t]? = some row) (hi : i < row.length) :
    setCell pub (t : Int) i v = some (pub.set t (row.set i v)) := by
  unfold setCell
  have h0 : ¬ ((t : Int) < 0) := by omega
  simp [h0, hrow, hi]

theorem addGuessLoop_spec (answer : String) (t : Nat) :
    ∀ (cs : List Char) (i : Nat) (pub : List (List String)) (priv row : List String),
      pub[t]? = some row → (∀ c ∈ cs, c.toNat < 128) → i + cs.length ≤ row.length →
      i + cs.length ≤ priv.length → i + cs.length ≤ (bytesOf answer).length →
      ∃ row1 priv1, addGuessLoop answer (t : Int) cs i pub priv = some (pub.set t row1, priv1) ∧
        row1.length = row.length ∧ priv1.length = priv.length ∧
        (∀ p, (p < i ∨ i + cs.length ≤ p) → row1[p]? = row[p]? ∧ priv1[p]? = priv[p]?) ∧
        (∀ k a c, (bytesOf answer)[i + k]? = some a → cs[k]? = some c →
          row1[i + k]? = some (publicCell answer a c) ∧
          priv1[i + k]? = some (privateSquare answer a c)) := by
  intro cs
  induction cs with
  | nil =>
    intro i pub priv row hrow _ _ _ _
    refine ⟨row, priv, ?_, rfl, rfl, fun p _ => ⟨rfl, rfl⟩, ?_⟩
    · simp [addGuessLoop, set_same pub t row hrow]
    · intro k a c _ hc
      simp at hc
  | cons c cs ih =>
    intro i pub priv row hrow hasc hr hp ha
    simp only [List.length_cons] at hr hp ha
    have hw : (EncodeRune c).length = 1 := by
      rw [EncodeRune_ascii c (hasc c (List.mem_cons_self _ _))]
      rfl
    have hia : i < (bytesOf answer).length := by omega
    have hir : i < row.length := by omega
    have hip : i < priv.length := by omega
    have htl : t < pub.length := (List.getElem?_eq_some.mp hrow).1
    obtain ⟨row1, priv1, hrun, hl1, hl2, hout, hin⟩ :=
      ih (i + 1) (pub.set t (row.set i (publicCell answer (bytesOf answer)[i] c)))
        (priv.set i (privateSquare answer (bytesOf answer)[i] c))
        (row.set i (publicCell answer (bytesOf answer)[i] c))
        (by simp [List.getElem?_set, htl]) (fun x hx => hasc x (List.mem_cons_of_mem _ hx))
        (by simp; omega) (by simp; omega) (by omega)
    refine ⟨row1, priv1, ?_, by simpa using hl1, by simpa using hl2, ?_, ?_⟩
    · rw [addGuessLoop_cons, List.getElem?_eq_getElem hia]
      simp only [setCell_ok pub t i row _ hrow hir, setSquare, hip, if_true, hw]
      rw [hrun, List.set_set]
    · intro p hp1
      simp only [List.length_cons] at hp1
      have hne : i ≠ p := by omega
      obtain ⟨h1, h2⟩ := hout p (by omega)
      rw [h1, h2]
      simp [List.getElem?_set, hne]
    · intro k a1 c1 hka hkc
      cases k with
      | zero =>
        simp only [Nat.add_zero] at hka ⊢
        rw [List.getElem?_eq_getElem hia] at hka
        simp only [List.getElem?_cons_zero] at hkc
        obtain ⟨h1, h2⟩ := hout i (by omega)
        rw [h1, h2]
        cases hka
        cases hkc
        simp [List.getElem?_set, hir, hip]
      | succ k =>
        have e : i + (k + 1) = i + 1 + k := by omega
        rw [e] at hka ⊢
        simp only [List.getElem?_cons_succ] at hkc
        exact hin k a1 c1 hka hkc

/-- The loop of `addGuess` panics when the answer has fewer bytes than the guess
has one-byte runes left: it reads past the answer. -/
theorem addGuessLoop_short (answer : String) (turn : Int) :
    ∀ (cs : List Char) (i : Nat) (pub : List (List String)) (priv : List String),
      (∀ c ∈ cs, c.toNat < 128) → i ≤ (bytesOf answer).length →
      (bytesOf answer).length < i + cs.length →
      addGuessLoop answer turn cs i pub priv = none := by
  intro cs
  induction cs with
  | nil =>
    intro i pub priv _ h1 h2
    simp only [List.length_nil] at h2
    omega
  | cons c cs ih =>
    intro i pub priv hasc h1 h2
    simp only [List.length_cons] at h2
    have hw : (EncodeRune c).length = 1 := by
      rw [EncodeRune_ascii c (hasc c (List.mem_cons_self _ _))]
      rfl
    rw [addGuessLoop_cons, hw]
    by_cases hi : i < (bytesOf answer).length
    · rw [List.getElem?_eq_getElem hi]
      simp only
      cases setCell pub turn i (publicCell answer (bytesOf answer)[i] c) with
      | none => rfl
      | some pub1 =>
        simp only
        cases setSquare priv i (privateSquare answer (bytesOf answer)[i] c) with
        | none => rfl
        | some priv1 =>
          exact ih (i + 1) pub1 priv1 (fun x hx => hasc x (List.mem_cons_of_mem _ hx))
            (by omega) (by omega)
    · rw [List.getElem?_eq_none (by omega)]

theorem cellsRow_length (answer guess : String) (ha : 5 ≤ (bytesOf answer).length)
    (hg : guess.data.length = 5) : (cellsRow answer guess).length = 5 := by
  simp only [cellsRow, List.length_zipWith, hg]
  omega

theorem squaresRow_length (answer guess : String) (ha : 5 ≤ (bytesOf answer).length)
    (hg : guess.data.length = 5) : (squaresRow answer guess).length = 5 := by
  simp only [squaresRow, List.length_zipWith, hg]
  omega

/-- The loop of `addGuess` on a guess of five one-byte runes, an answer of at
least five bytes and a row of five cells at the current turn: it ends, with the
row of cells of the guess on the public board and the row of squares of the
guess. -/
theorem addGuessLoop_full (answer guess : String) (t : Nat) (pub : List (List String))
    (row : List String) (hrow : pub[t]? = some row) (hlen : row.length = 5)
    (ha : 5 ≤ (bytesOf answer).length) (hg : guess.data.length = 5)
    (hasc : ∀ c ∈ guess.data, c.toNat < 128) :
    addGuessLoop answer (t : Int) guess.data 0 pub (List.replicate 5 "") =
      some (pub.set t (cellsRow answer guess), squaresRow answer guess) := by
  obtain ⟨row1, priv1, hrun, hl1, hl2, _, hin⟩ :=
    addGuessLoop_spec answer t guess.data 0 pub (List.replicate 5 "") row hrow hasc
      (by omega) (by simp only [List.length_replicate]; omega) (by omega)
  rw [hrun]
  have e1 : row1 = cellsRow answer guess := by
    apply List.ext_getElem?
    intro p
    by_cases hp : p < 5
    · have h1 : (bytesOf answer)[p]? = some (bytesOf answer)[p] :=
        List.getElem?_eq_getElem (by omega)
      have h2 : guess.data[p]? = some guess.data[p] := List.getElem?_eq_getElem (by omega)
      have := (hin p _ _ (by rw [Nat.zero_add]; exact h1) h2).1
      simp only [Nat.zero_add] at this
      rw [this]
      simp [cellsRow, List.getElem?_zipWith, h1, h2]
    · rw [List.getElem?_eq_none (by omega), List.getElem?_eq_none]
      rw [cellsRow_length answer guess ha hg]
      omega
  have e2 : priv1 = squaresRow answer guess := by
    apply List.ext_getElem?
    intro p
    by_cases hp : p < 5
    · have h1 : (bytesOf answer)[p]? = some (bytesOf answer)[p] :=
        List.getElem?_eq_getElem (by omega)
      have h2 : guess.data[p]? = some guess.data[p] := List.getElem?_eq_getElem (by omega)
      have := (hin p _ _ (by rw [Nat.zero_add]; exact h1) h2).2
      simp only [Nat.zero_add] at this
      rw [this]
      simp [squaresRow, List.getElem?_zipWith, h1, h2]
    · have hl3 : priv1.length = 5 := by simpa using hl2
      rw [List.getElem?_eq_none (by omega), List.getElem?_eq_none]
      rw [squaresRow_length answer guess ha hg]
      omega
  rw [e1, e2]

/-- What `addGuess` returns on a five-letter guess when the answer has at least
five bytes and the public board has a row of five cells at the current turn. -/
theorem addGuess_spec (g : game) (guess : String) (t : Nat) (row : List String)
    (ht : g.currentTurn = (t : Int)) (hrow : g.publicBoard[t]? = some row)
    (hlen : row.length = 5) (ha : 5 ≤ (bytesOf g.answer).length)
    (hv : validMatchString guess = true) :
    addGuess g guess = some
      { g with
        publicBoard := g.publicBoard.set t (cellsRow g.answer guess)
        privateBoard := g.privateBoard ++ [squaresRow g.answer guess]
        turnsRemaining := wrapInt (g.turnsRemaining - 1)
        currentTurn := wrapInt (g.currentTurn + 1)
        complete := if guess = g.answer ∨ wrapInt (g.turnsRemaining - 1) = 0 then true
          else g.complete
        won := if guess = g.answer then true else g.won } := by
  unfold addGuess
  rw [ht, addGuessLoop_full g.answer guess t g.publicBoard row hrow hlen ha
    (validMatchString_length guess hv) (validMatchString_ascii guess hv)]

/-- When `addGuess` returns on a five-letter guess, the answer has at least five
bytes. -/
theorem addGuess_some_bytes (g g1 : game) (guess : String)
    (hv : validMatchString guess = true) (hadd : addGuess g guess = some g1) :
    5 ≤ (bytesOf g.answer).length := by
  by_contra hlt
  have hnone := addGuessLoop_short g.answer g.currentTurn guess.data 0 g.publicBoard
    (List.replicate 5 "") (validMatchString_ascii guess hv) (Nat.zero_le _)
    (by rw [validMatchString_length guess hv]; omega)
  unfold addGuess at hadd
  rw [hnone] at hadd
  cases hadd

/-! ## The states of a game -/

theorem newGame_fields (upperCase : Char → Char) (answersFile : String)
    (guessLines : List String) (day : Int) (g0 : game)
    (h : newGame upperCase answersFile guessLines day = some g0) :
    g0.day = day ∧ g0.currentTurn = 0 ∧ g0.turnsRemaining = 6 ∧ g0.complete = false ∧
      g0.won = false ∧ answerForDay upperCase answersFile day = some g0.answer ∧
      g0.validGuesses = guessesSet upperCase guessLines ∧
      g0.publicBoard = List.replicate 6 blankRow ∧ g0.privateBoard = [] := by
  unfold newGame at h
  cases hans : answerForDay upperCase answersFile day with
  | none => rw [hans] at h; cases h
  | some a =>
    rw [hans] at h
    cases h
    simp [blankRow]

theorem set_append_replicate {α : Type} (l : List α) (k : Nat) (b x : α) :
    (l ++ List.replicate (k + 1) b).set l.length x = (l ++ [x]) ++ List.replicate k b := by
  induction l with
  | nil => simp [List.replicate_succ]
  | cons a l ih => simpa using ih

theorem Inv_start (upperCase : Char → Char) (answersFile : String)
    (guessLines : List String) (day : Int) (g0 : game)
    (h : newGame upperCase answersFile guessLines day = some g0) : Inv g0 [] g0 := by
  obtain ⟨_, h2, h3, h4, h5, _, _, h8, h9⟩ :=
    newGame_fields upperCase answersFile guessLines day g0 h
  refine ⟨rfl, rfl, rfl, by simp, by simp, by simpa using h2, by simpa using h3, by simpa using h8,
    by simpa using h9, by simp, by simp, ?_, ?_⟩
  · intro hw
    rw [h5] at hw
    cases hw
  · simp [h4, h5]

theorem Inv_turn (g0 g g1 : game) (ws : List String) (guess : String)
    (hinv : Inv g0 ws g) (hc : g.complete = false)
    (hv : validMatchString guess = true) (hadd : addGuess g guess = some g1) :
    Inv g0 (ws ++ [guess]) g1 := by
  have ha : 5 ≤ (bytesOf g0.answer).length := by
    rw [← hinv.answer]
    exact addGuess_some_bytes g g1 guess hv hadd
  have hwon : g.won = false := by
    cases hw : g.won with
    | false => rfl
    | true =>
      have := hinv.complete.mpr (Or.inl hw)
      rw [hc] at this
      cases this
  have hlt : ws.length < 6 := by
    have h6 : ws.length ≠ 6 := fun h6 => by
      have := hinv.complete.mpr (Or.inr h6)
      rw [hc] at this
      cases this
    have := hinv.len
    omega
  have hrow : g.publicBoard[ws.length]? = some blankRow := by
    rw [hinv.pub, List.getElem?_append_right (by simp)]
    simp [List.getElem?_replicate]
    omega
  have hspec := addGuess_spec g guess ws.length blankRow hinv.turn hrow (by simp [blankRow])
    (by rw [hinv.answer]; exact ha) hv
  rw [hspec] at hadd
  cases hadd
  have hrem : wrapInt (g.turnsRemaining - 1) = 6 - ((ws.length : Int) + 1) := by
    rw [hinv.remaining, wrapInt_small _ (by omega) (by omega)]
    omega
  have hall := hinv.lost hwon
  refine ⟨hinv.day, hinv.answer, hinv.guesses, by simp; omega, fun _ => ha,
    ?_, ?_, ?_, ?_, ?_, ?_, ?_, ?_⟩
  · simp only [List.length_append, List.length_singleton]
    rw [hinv.turn, wrapInt_small _ (by omega) (by omega)]
    push_cast
    rfl
  · simp only [List.length_append, List.length_singleton]
    rw [hrem]
    push_cast
    rfl
  · simp only [List.length_append, List.length_singleton, List.map_append, List.map_cons,
      List.map_nil]
    rw [hinv.pub, hinv.answer]
    have e : 6 - ws.length = (6 - (ws.length + 1)) + 1 := by omega
    rw [e]
    have := set_append_replicate (ws.map (cellsRow g0.answer)) (6 - (ws.length + 1)) blankRow
      (cellsRow g0.answer guess)
    simpa using this
  · simp [hinv.priv, hinv.answer]
  · intro w hw
    rcases List.mem_append.mp hw with h | h
    · exact hinv.valid w h
    · simp at h
      rw [h]
      exact hv
  · intro hw w hmem
    simp only [hinv.answer, hwon] at hw
    have hne : guess ≠ g0.answer := by
      intro heq
      simp [heq] at hw
    rcases List.mem_append.mp hmem with h | h
    · exact hall w h
    · simp at h
      rw [h]
      exact hne
  · intro hw
    simp only [hinv.answer, hwon] at hw
    have heq : guess = g0.answer := by
      by_contra hne
      simp [hne] at hw
    refine ⟨by simp [heq], ?_⟩
    simpa using hall
  · simp only [hinv.answer, hwon, hrem, hc, List.length_append, List.length_singleton]
    by_cases heq : guess = g0.answer
    · simp [heq]
    · simp [heq]
      omega

/-- Every state of a game started by `newGame` satisfies the invariant. -/
theorem Reachable_inv (upperCase : Char → Char) (answersFile : String)
    (guessLines : List String) (day : Int) (g0 g : game) (ws : List String)
    (h : newGame upperCase answersFile guessLines day = some g0) (hr : Reachable g0 ws g) :
    Inv g0 ws g := by
  induction hr with
  | start => exact Inv_start upperCase answersFile guessLines day g0 h
  | turn _ hc hv hadd ih =>
    exact Inv_turn g0 _ _ _ _ ih hc hv hadd

/-! ## One row of feedback -/

theorem squares_distinct :
    greenSquare ≠ yellowSquare ∧ greenSquare ≠ blackSquare ∧ yellowSquare ≠ blackSquare := by
  decide

theorem ContainsRune_iff (s : String) (c : Char) :
    ContainsRune s c = true ↔ ∃ j : Nat, s.data[j]? = some c := by
  simp [ContainsRune, List.mem_iff_getElem?]

theorem toNat_eq_iff (c a : Char) : c.toNat = a.toNat ↔ c = a := by
  constructor
  · intro h
    have := congrArg Char.ofNat h
    simpa [Char.ofNat_toNat] using this
  · intro h
    rw [h]

theorem privateSquare_green (answer : String) (a : Nat) (c : Char) :
    privateSquare answer a c = greenSquare ↔ c.toNat = a := by
  obtain ⟨h1, h2, _⟩ := squares_distinct
  unfold privateSquare
  split_ifs with hca hin
  · simp [hca]
  · simp [hca, h1.symm]
  · simp [hca, h2.symm]

theorem privateSquare_yellow (answer : String) (a : Nat) (c : Char) :
    privateSquare answer a c = yellowSquare ↔ c.toNat ≠ a ∧ ContainsRune answer c = true := by
  obtain ⟨h1, _, h3⟩ := squares_distinct
  unfold privateSquare
  split_ifs with hca hin
  · simp [hca, h1]
  · simp [hca, hin]
  · simp [hca, hin, h3.symm]

theorem privateSquare_black (answer : String) (a : Nat) (c : Char) :
    privateSquare answer a c = blackSquare ↔ c.toNat ≠ a ∧ ContainsRune answer c = false := by
  obtain ⟨_, h2, h3⟩ := squares_distinct
  unfold privateSquare
  split_ifs with hca hin
  · simp [hca, h2]
  · simp [hca, hin, h3]
  · simp [hca, hin]

theorem squaresRow_getElem? (answer guess : String) (i : Nat) (a : Nat) (c : Char)
    (ha : (bytesOf answer)[i]? = some a) (hc : guess.data[i]? = some c) :
    (squaresRow answer guess)[i]? = some (privateSquare answer a c) := by
  simp [squaresRow, List.getElem?_zipWith, ha, hc]

theorem cellsRow_getElem? (answer guess : String) (i : Nat) (a : Nat) (c : Char)
    (ha : (bytesOf answer)[i]? = some a) (hc : guess.data[i]? = some c) :
    (cellsRow answer guess)[i]? = some (publicCell answer a c) := by
  simp [cellsRow, List.getElem?_zipWith, ha, hc]

/-- The byte of an ASCII answer at an offset is the character at that
position. -/
theorem bytesOf_getElem? (answer : String) (h : validMatchString answer = true) (i : Nat)
    (a : Char) (ha : answer.data[i]? = some a) : (bytesOf answer)[i]? = some a.toNat := by
  rw [(validMatchString_bytes answer h).1, List.getElem?_map, ha]
  rfl

/-- C1. Per-letter feedback of `addGuess`: on a five-letter answer and a
five-letter guess, in a state whose public board has a row of five cells at the
current turn, `addGuess` returns and appends one row of five squares to the
private board; at every position the square is green when the guess letter is
the answer letter there, else yellow when the letter occurs in the answer, else
black. So green means the right position, yellow a letter of the answer that
stands at another position, black a letter that the answer does not have. -/
theorem addGuess_feedback (g : game) (guess : String) (row0 : List String)
    (hans : validMatchString g.answer = true) (hguess : validMatchString guess = true)
    (hturn : 0 ≤ g.currentTurn) (hrow : g.publicBoard[g.currentTurn.toNat]? = some row0)
    (hlen : row0.length = 5) :
    ∃ g1 row, addGuess g guess = some g1 ∧ g1.privateBoard = g.privateBoard ++ [row] ∧
      row.length = 5 ∧
      ∀ i, i < 5 → ∃ a c sq, g.answer.data[i]? = some a ∧ guess.data[i]? = some c ∧
        row[i]? = some sq ∧
        sq = (if c = a then greenSquare
          else if c ∈ g.answer.data then yellowSquare else blackSquare) ∧
        (sq = greenSquare ↔ c = a) ∧
        (sq = yellowSquare ↔ c ≠ a ∧ ∃ j : Nat, j ≠ i ∧ g.answer.data[j]? = some c) ∧
        (sq = blackSquare ↔ ∀ j : Nat, g.answer.data[j]? ≠ some c) := by
  have ha := validMatchString_length g.answer hans
  have hab := (validMatchString_bytes g.answer hans).2
  have hg := validMatchString_length guess hguess
  have hspec := addGuess_spec g guess g.currentTurn.toNat row0 (by omega) hrow hlen
    (by omega) hguess
  refine ⟨_, squaresRow g.answer guess, hspec, rfl,
    squaresRow_length _ _ (by omega) hg, ?_⟩
  intro i hi
  have h1 : g.answer.data[i]? = some g.answer.data[i] := List.getElem?_eq_getElem (by omega)
  have h2 : guess.data[i]? = some guess.data[i] := List.getElem?_eq_getElem (by omega)
  have hb := bytesOf_getElem? g.answer hans i _ h1
  have hain : ContainsRune g.answer g.answer.data[i] = true :=
    (ContainsRune_iff _ _).mpr ⟨i, h1⟩
  have hinj := toNat_eq_iff guess.data[i] g.answer.data[i]
  refine ⟨g.answer.data[i], guess.data[i], _, h1, h2,
    squaresRow_getElem? _ _ i _ _ hb h2, ?_,
    (privateSquare_green _ _ _).trans hinj, ?_, ?_⟩
  · simp [privateSquare, ContainsRune, hinj]
  · rw [privateSquare_yellow, ContainsRune_iff, ne_eq, hinj]
    constructor
    · rintro ⟨hne, j, hj⟩
      refine ⟨hne, j, ?_, hj⟩
      intro hji
      rw [hji, h1] at hj
      exact hne (Option.some.inj hj).symm
    · rintro ⟨hne, j, _, hj⟩
      exact ⟨hne, j, hj⟩
  · rw [privateSquare_black, ne_eq, hinj]
    constructor
    · rintro ⟨_, hno⟩ j hj
      have := (ContainsRune_iff g.answer guess.data[i]).mpr ⟨j, hj⟩
      rw [hno] at this
      cases this
    · intro hno
      refine ⟨fun heq => hno i (heq ▸ h1), ?_⟩
      cases hc : ContainsRune g.answer guess.data[i] with
      | false => rfl
      | true =>
        obtain ⟨j, hj⟩ := (ContainsRune_iff _ _).mp hc
        exact absurd hj (hno j)

theorem newGame_crane :
    newGame id "crane\r\nhello\r\n" ["crane", "mamma", "hello"] 0 = some craneGame := by
  decide

theorem addGuess_feedback_witness :
    ∃ g1 row, addGuess craneGame "MAMMA" = some g1 ∧
      g1.privateBoard = craneGame.privateBoard ++ [row] ∧ row.length = 5 ∧
      ∀ i, i < 5 → ∃ a c sq, craneGame.answer.data[i]? = some a ∧
        "MAMMA".data[i]? = some c ∧ row[i]? = some sq ∧
        sq = (if c = a then greenSquare
          else if c ∈ craneGame.answer.data then yellowSquare else blackSquare) ∧
        (sq = greenSquare ↔ c = a) ∧
        (sq = yellowSquare ↔ c ≠ a ∧ ∃ j : Nat, j ≠ i ∧ craneGame.answer.data[j]? = some c) ∧
        (sq = blackSquare ↔ ∀ j : Nat, craneGame.answer.data[j]? ≠ some c) :=
  addGuess_feedback craneGame "MAMMA" blankRow (by decide) (by decide) (by decide) (by decide)
    (by decide)

theorem privateSquare_cases (answer : String) (a : Nat) (c : Char) :
    privateSquare answer a c = greenSquare ∨ privateSquare answer a c = yellowSquare ∨
      privateSquare answer a c = blackSquare := by
  unfold privateSquare
  split_ifs <;> simp

theorem all_green_iff (answer guess : String) (ha : validMatchString answer = true)
    (hg : guess.data.length = 5) :
    (∀ i, i < 5 → (squaresRow answer guess)[i]? = some greenSquare) ↔ guess = answer := by
  have hal := validMatchString_length answer ha
  constructor
  · intro h
    apply String.ext
    apply List.ext_getElem?
    intro i
    by_cases hi : i < 5
    · have h1 : answer.data[i]? = some answer.data[i] := List.getElem?_eq_getElem (by omega)
      have h2 : guess.data[i]? = some guess.data[i] := List.getElem?_eq_getElem (by omega)
      have h3 := h i hi
      rw [squaresRow_getElem? _ _ i _ _ (bytesOf_getElem? answer ha i _ h1) h2] at h3
      rw [h1, h2, (toNat_eq_iff _ _).mp ((privateSquare_green _ _ _).mp (Option.some.inj h3))]
    · rw [List.getElem?_eq_none (by omega), List.getElem?_eq_none (by omega)]
  · intro h i hi
    subst h
    have h1 : guess.data[i]? = some guess.data[i] := List.getElem?_eq_getElem (by omega)
    rw [squaresRow_getElem? _ _ i _ _ (bytesOf_getElem? guess ha i _ h1) h1]
    exact congrArg some ((privateSquare_green _ _ _).mpr rfl)

/-- C6. Winning agrees with the letter-by-letter comparison: on a five-letter
answer and a five-letter guess `addGuess` returns, it sets `won` exactly when
the guess is the answer, and the guess is the answer exactly when all five
squares of the row it appends to the private board are green; a guess that is
not the answer has a yellow or a black square. -/
theorem addGuess_won_iff_all_green (g : game) (guess : String) (row0 : List String)
    (hans : validMatchString g.answer = true) (hguess : validMatchString guess = true)
    (hturn : 0 ≤ g.currentTurn) (hrow : g.publicBoard[g.currentTurn.toNat]? = some row0)
    (hlen : row0.length = 5) :
    ∃ g1 row, addGuess g guess = some g1 ∧ g1.privateBoard = g.privateBoard ++ [row] ∧
      g1.won = (if guess = g.answer then true else g.won) ∧
      (guess = g.answer ↔ ∀ i, i < 5 → row[i]? = some greenSquare) ∧
      (guess ≠ g.answer →
        ∃ i, i < 5 ∧ (row[i]? = some yellowSquare ∨ row[i]? = some blackSquare)) := by
  have ha := validMatchString_length g.answer hans
  have hab := (validMatchString_bytes g.answer hans).2
  have hg := validMatchString_length guess hguess
  have hspec := addGuess_spec g guess g.currentTurn.toNat row0 (by omega) hrow hlen
    (by omega) hguess
  refine ⟨_, squaresRow g.answer guess, hspec, rfl, rfl, (all_green_iff _ _ hans hg).symm, ?_⟩
  intro hne
  have hnot : ¬ ∀ i, i < 5 → (squaresRow g.answer guess)[i]? = some greenSquare :=
    fun h => hne ((all_green_iff _ _ hans hg).mp h)
  push_neg at hnot
  obtain ⟨i, hi, hsq⟩ := hnot
  have h1 : g.answer.data[i]? = some g.answer.data[i] := List.getElem?_eq_getElem (by omega)
  have h2 : guess.data[i]? = some guess.data[i] := List.getElem?_eq_getElem (by omega)
  have hb := bytesOf_getElem? g.answer hans i _ h1
  rw [squaresRow_getElem? _ _ i _ _ hb h2] at hsq
  refine ⟨i, hi, ?_⟩
  rw [squaresRow_getElem? _ _ i _ _ hb h2]
  rcases privateSquare_cases g.answer g.answer.data[i].toNat guess.data[i] with h | h | h
  · exact absurd (congrArg some h) hsq
  · exact Or.inl (congrArg some h)
  · exact Or.inr (congrArg some h)

theorem addGuess_won_iff_all_green_witness :
    ∃ g1 row, addGuess craneGame "CRANE" = some g1 ∧
      g1.privateBoard = craneGame.privateBoard ++ [row] ∧
      g1.won = (if "CRANE" = craneGame.answer then true else craneGame.won) ∧
      ("CRANE" = craneGame.answer ↔ ∀ i, i < 5 → row[i]? = some greenSquare) ∧
      ("CRANE" ≠ craneGame.answer →
        ∃ i, i < 5 ∧ (row[i]? = some yellowSquare ∨ row[i]? = some blackSquare)) :=
  addGuess_won_iff_all_green craneGame "CRANE" blankRow (by decide) (by decide) (by decide)
    (by decide) (by decide)

theorem publicCell_congr (a1 a2 : String) (a : Nat) (c : Char)
    (hset : ∀ x, x ∈ a1.data ↔ x ∈ a2.data) :
    publicCell a1 a c = publicCell a2 a c ∧ privateSquare a1 a c = privateSquare a2 a c := by
  have e : ContainsRune a1 c = ContainsRune a2 c := by
    simp only [ContainsRune]
    exact decide_eq_decide.mpr (hset c)
  simp [publicCell, privateSquare, e]

/-- C10. Feedback is position-local and does not consume letters: two guesses
with the same letter at position `i`, against answers with the same letter at
`i` and the same set of letters (in particular against one answer), get the
same square and the same cell at `i`, whatever their other letters. And on the
answer `CRANE` the guess `MAMMA` has both its letters `A`, at positions 1 and 4
where `CRANE` has other letters, marked yellow, though `CRANE` has one `A`. -/
theorem feedback_position_local (s1 s2 : game) (w1 w2 : String) (r1 r2 : List String) (i : Nat)
    (ha1 : validMatchString s1.answer = true) (ha2 : validMatchString s2.answer = true)
    (hw1 : validMatchString w1 = true) (hw2 : validMatchString w2 = true)
    (ht1 : 0 ≤ s1.currentTurn) (hr1 : s1.publicBoard[s1.currentTurn.toNat]? = some r1)
    (hl1 : r1.length = 5)
    (ht2 : 0 ≤ s2.currentTurn) (hr2 : s2.publicBoard[s2.currentTurn.toNat]? = some r2)
    (hl2 : r2.length = 5)
    (hi : i < 5) (hsame : w1.data[i]? = w2.data[i]?)
    (hans : s1.answer.data[i]? = s2.answer.data[i]?)
    (hset : ∀ c, c ∈ s1.answer.data ↔ c ∈ s2.answer.data) :
    (∃ t1 t2 row1 row2 cells1 cells2, addGuess s1 w1 = some t1 ∧ addGuess s2 w2 = some t2 ∧
      t1.privateBoard = s1.privateBoard ++ [row1] ∧
      t2.privateBoard = s2.privateBoard ++ [row2] ∧
      t1.publicBoard[s1.currentTurn.toNat]? = some cells1 ∧
      t2.publicBoard[s2.currentTurn.toNat]? = some cells2 ∧
      row1[i]? = row2[i]? ∧ cells1[i]? = cells2[i]?) ∧
    ((addGuess craneGame "MAMMA").map (fun t => t.privateBoard) =
        some [[blackSquare, yellowSquare, blackSquare, blackSquare, yellowSquare]] ∧
      craneGame.answer = "CRANE" ∧ List.count 'A' "CRANE".data = 1 ∧
      List.count 'A' "MAMMA".data = 2 ∧
      "MAMMA".data[1]? = some 'A' ∧ "MAMMA".data[4]? = some 'A' ∧
      "CRANE".data[1]? ≠ some 'A' ∧ "CRANE".data[4]? ≠ some 'A') := by
  refine ⟨?_, by decide⟩
  have hla1 := validMatchString_length _ ha1
  have hla2 := validMatchString_length _ ha2
  have hlw1 := validMatchString_length _ hw1
  have hlw2 := validMatchString_length _ hw2
  have hlb1 := (validMatchString_bytes _ ha1).2
  have hlb2 := (validMatchString_bytes _ ha2).2
  have hs1 := addGuess_spec s1 w1 s1.currentTurn.toNat r1 (by omega) hr1 hl1 (by omega) hw1
  have hs2 := addGuess_spec s2 w2 s2.currentTurn.toNat r2 (by omega) hr2 hl2 (by omega) hw2
  have hb1 : s1.currentTurn.toNat < s1.publicBoard.length := (List.getElem?_eq_some.mp hr1).1
  have hb2 : s2.currentTurn.toNat < s2.publicBoard.length := (List.getElem?_eq_some.mp hr2).1
  refine ⟨_, _, squaresRow s1.answer w1, squaresRow s2.answer w2, cellsRow s1.answer w1,
    cellsRow s2.answer w2, hs1, hs2, rfl, rfl, by simp [List.getElem?_set, hb1],
    by simp [List.getElem?_set, hb2], ?_, ?_⟩
  · have h1 : s1.answer.data[i]? = some s1.answer.data[i] := List.getElem?_eq_getElem (by omega)
    have h2 : w1.data[i]? = some w1.data[i] := List.getElem?_eq_getElem (by omega)
    rw [squaresRow_getElem? _ _ i _ _ (bytesOf_getElem? _ ha1 i _ h1) h2,
      squaresRow_getElem? _ _ i _ _ (bytesOf_getElem? _ ha2 i _ (hans ▸ h1)) (hsame ▸ h2)]
    exact congrArg some (publicCell_congr _ _ _ _ hset).2
  · have h1 : s1.answer.data[i]? = some s1.answer.data[i] := List.getElem?_eq_getElem (by omega)
    have h2 : w1.data[i]? = some w1.data[i] := List.getElem?_eq_getElem (by omega)
    rw [cellsRow_getElem? _ _ i _ _ (bytesOf_getElem? _ ha1 i _ h1) h2,
      cellsRow_getElem? _ _ i _ _ (bytesOf_getElem? _ ha2 i _ (hans ▸ h1)) (hsame ▸ h2)]
    exact congrArg some (publicCell_congr _ _ _ _ hset).1

theorem Inv_not_won (g0 g : game) (ws : List String) (hinv : Inv g0 ws g)
    (hc : g.complete = false) : g.won = false ∧ ws.length < 6 := by
  constructor
  · cases hw : g.won with
    | false => rfl
    | true =>
      have := hinv.complete.mpr (Or.inl hw)
      rw [hc] at this
      cases this
  · have h6 : ws.length ≠ 6 := fun h6 => by
      have := hinv.complete.mpr (Or.inr h6)
      rw [hc] at this
      cases this
    have := hinv.len
    omega

theorem Inv_row (g0 g : game) (ws : List String) (hinv : Inv g0 ws g) (j : Nat)
    (h1 : ws.length ≤ j) (h2 : j < 6) : g.publicBoard[j]? = some blankRow := by
  rw [hinv.pub, List.getElem?_append_right (by simpa using h1)]
  simp [List.getElem?_replicate]
  omega

/-- A game that is not complete, on an answer of at least five bytes, takes one
more five-letter guess: `addGuess` returns. -/
theorem Inv_progress (g0 g : game) (ws : List String) (guess : String)
    (ha : 5 ≤ (bytesOf g0.answer).length) (hinv : Inv g0 ws g) (hc : g.complete = false)
    (hv : validMatchString guess = true) : ∃ g1, addGuess g guess = some g1 :=
  ⟨_, addGuess_spec g guess ws.length blankRow hinv.turn
    (Inv_row g0 g ws hinv ws.length (Nat.le_refl _) (Inv_not_won g0 g ws hinv hc).2)
    (by simp [blankRow]) (by rw [hinv.answer]; exact ha) hv⟩

theorem Inv_won_iff (g0 g : game) (ws : List String) (hinv : Inv g0 ws g) :
    g.won = true ↔ ws.getLast? = some g0.answer := by
  constructor
  · exact fun h => (hinv.won h).1
  · intro h
    cases hw : g.won with
    | true => rfl
    | false =>
      exact absurd rfl (hinv.lost hw g0.answer (List.mem_of_getLast?_eq_some h))

/-- C2. Game end: in a game started by `newGame`, with five-letter guesses given
to `addGuess` as long as the game is not complete, there are at most six
guesses; after a guess the game is complete exactly when that guess is the
answer or it is the sixth, and won exactly when that guess is the answer; after
six guesses the game is complete; it is complete and not won exactly when six
guesses were made and none is the answer; and a game that is not complete takes
one more guess exactly when the answer has at least five bytes (`addGuess` reads
the answer at the five byte offsets of the guess). -/
theorem game_end (upperCase : Char → Char) (answersFile : String) (guessLines : List String)
    (day : Int) (g0 g : game) (ws : List String)
    (h0 : newGame upperCase answersFile guessLines day = some g0) (hr : Reachable g0 ws g) :
    ws.length ≤ 6 ∧
    (ws = [] → g.complete = false ∧ g.won = false) ∧
    (∀ ws1 w, ws = ws1 ++ [w] →
      (g.complete = true ↔ (w = g0.answer ∨ ws.length = 6)) ∧
      (g.won = true ↔ w = g0.answer)) ∧
    (ws.length = 6 → g.complete = true) ∧
    ((g.complete = true ∧ g.won = false) ↔ (ws.length = 6 ∧ ∀ w ∈ ws, w ≠ g0.answer)) ∧
    (g.complete = false → ∀ w, validMatchString w = true →
      ((∃ g1, addGuess g w = some g1 ∧ Reachable g0 (ws ++ [w]) g1) ↔
        5 ≤ (bytesOf g0.answer).length)) := by
  have hinv := Reachable_inv upperCase answersFile guessLines day g0 g ws h0 hr
  have hwon := Inv_won_iff g0 g ws hinv
  have hlast : ∀ ws1 w, ws = ws1 ++ [w] → (g.won = true ↔ w = g0.answer) := by
    intro ws1 w hws
    rw [hwon, hws, List.getLast?_concat]
    constructor
    · exact fun h => Option.some.inj h
    · exact fun h => congrArg some h
  refine ⟨hinv.len, ?_, ?_, ?_, ?_, ?_⟩
  · intro hnil
    have hw : g.won = false := by
      cases hw : g.won with
      | false => rfl
      | true =>
        have := (hwon.mp hw)
        rw [hnil] at this
        cases this
    refine ⟨?_, hw⟩
    cases hc : g.complete with
    | false => rfl
    | true =>
      rcases hinv.complete.mp hc with h | h
      · rw [hw] at h
        cases h
      · rw [hnil] at h
        cases h
  · intro ws1 w hws
    refine ⟨?_, hlast ws1 w hws⟩
    rw [hinv.complete, hlast ws1 w hws]
  · exact fun h => hinv.complete.mpr (Or.inr h)
  · constructor
    · rintro ⟨hc, hw⟩
      refine ⟨?_, hinv.lost hw⟩
      rcases hinv.complete.mp hc with h | h
      · rw [hw] at h
        cases h
      · exact h
    · rintro ⟨h6, hall⟩
      refine ⟨hinv.complete.mpr (Or.inr h6), ?_⟩
      cases hw : g.won with
      | false => rfl
      | true =>
        exact absurd rfl (hall g0.answer (List.mem_of_getLast?_eq_some (hwon.mp hw)))
  · intro hc w hv
    constructor
    · rintro ⟨g1, hadd, _⟩
      rw [← hinv.answer]
      exact addGuess_some_bytes g g1 w hv hadd
    · intro ha
      obtain ⟨g1, hadd⟩ := Inv_progress g0 g ws w ha hinv hc hv
      exact ⟨g1, hadd, Reachable.turn hr hc hv hadd⟩

/-- C8. Turn accounting: in every state of a game started by `newGame` the
turns made and the turns left add up to six, the turn count is between zero and
six and is the number of guesses made and of rows of the private board, a won
game is complete, and a game is complete exactly when it is won or no turn is
left. In a won game `printScore` prints the number of guesses made, between one
and six, before `/6`; the guess at that place is the answer and no guess before
it is. -/
theorem turn_accounting (upperCase : Char → Char) (answersFile : String)
    (guessLines : List String) (day : Int) (g0 g : game) (ws : List String)
    (h0 : newGame upperCase answersFile guessLines day = some g0) (hr : Reachable g0 ws g) :
    g.currentTurn + g.turnsRemaining = 6 ∧ 0 ≤ g.currentTurn ∧ g.currentTurn ≤ 6 ∧
    g.currentTurn = (ws.length : Int) ∧ (g.privateBoard.length : Int) = g.currentTurn ∧
    (g.won = true → g.complete = true) ∧
    (g.complete = true ↔ (g.won = true ∨ g.turnsRemaining = 0)) ∧
    (g.won = true → ∃ N : Nat, 1 ≤ N ∧ N ≤ 6 ∧ N = ws.length ∧
      turnS g = Itoa (N : Int) ∧
      printScore g = "you won!\n" ++ ("Wordle " ++ Itoa g.day ++ " " ++ Itoa (N : Int) ++ "/6\n\n") ++
        String.join (g.privateBoard.map fun y => String.join y ++ "\n") ∧
      ws[N - 1]? = some g0.answer ∧ ∀ j : Nat, j < N - 1 → ws[j]? ≠ some g0.answer) := by
  have hinv := Reachable_inv upperCase answersFile guessLines day g0 g ws h0 hr
  have hlen := hinv.len
  refine ⟨?_, ?_, ?_, hinv.turn, ?_, ?_, ?_, ?_⟩
  · rw [hinv.turn, hinv.remaining]
    omega
  · rw [hinv.turn]
    omega
  · rw [hinv.turn]
    omega
  · rw [hinv.turn, hinv.priv]
    simp
  · exact fun h => hinv.complete.mpr (Or.inl h)
  · rw [hinv.complete, hinv.remaining]
    constructor
    · rintro (h | h)
      · exact Or.inl h
      · exact Or.inr (by omega)
    · rintro (h | h)
      · exact Or.inl h
      · exact Or.inr (by omega)
  · intro hw
    obtain ⟨hlast, hearly⟩ := hinv.won hw
    have hne : ws ≠ [] := by
      intro hnil
      rw [hnil] at hlast
      cases hlast
    have hpos : 1 ≤ ws.length := by
      cases ws with
      | nil => exact absurd rfl hne
      | cons _ _ => simp
    refine ⟨ws.length, hpos, hlen, rfl, ?_, ?_, ?_, ?_⟩
    · simp [turnS, hw, hinv.turn]
    · simp [printScore, turnS, hw, hinv.turn]
    · rw [← List.getLast?_eq_getElem?]
      exact hlast
    · intro j hj hget
      have hdl : ws.dropLast[j]? = some g0.answer := by
        rw [List.getElem?_dropLast, if_pos hj]
        exact hget
      exact hearly g0.answer (List.getElem?_mem hdl) rfl

/-! ## Index safety and the two boards -/

/-- With the turn count at six and a public board of six rows, `addGuess`
panics on the first letter of a guess: there is no row for the turn. -/
theorem addGuess_none (g : game) (w : String) (ht : g.currentTurn = 6)
    (hb : g.publicBoard.length = 6) (hw : w.data ≠ []) : addGuess g w = none := by
  unfold addGuess
  cases hd : w.data with
  | nil => exact absurd hd hw
  | cons c cs =>
    have hset : ∀ v, setCell g.publicBoard g.currentTurn 0 v = none := by
      intro v
      have hnone : g.publicBoard[6]? = none :=
        List.getElem?_eq_none (by rw [hb])
      simp [setCell, ht, hnone]
    rw [addGuessLoop_cons]
    cases answer0 : (bytesOf g.answer)[0]? with
    | none => rfl
    | some a => simp [hset]

theorem Inv_board (g0 g : game) (ws : List String) (hinv : Inv g0 ws g) :
    g.publicBoard.length = 6 ∧ (∀ row ∈ g.publicBoard, row.length = 5) ∧
      g.privateBoard.length = ws.length ∧ (∀ row ∈ g.privateBoard, row.length = 5) := by
  have hlen := hinv.len
  refine ⟨?_, ?_, ?_, ?_⟩
  · rw [hinv.pub]
    simp
    omega
  · intro row hrow
    rw [hinv.pub] at hrow
    rcases List.mem_append.mp hrow with h | h
    · obtain ⟨w, hw, rfl⟩ := List.mem_map.mp h
      exact cellsRow_length _ _ (hinv.bytes (List.ne_nil_of_mem hw))
        (validMatchString_length w (hinv.valid w hw))
    · rw [(List.mem_replicate.mp h).2]
      simp [blankRow]
  · rw [hinv.priv]
    simp
  · intro row hrow
    rw [hinv.priv] at hrow
    obtain ⟨w, hw, rfl⟩ := List.mem_map.mp hrow
    exact squaresRow_length _ _ (hinv.bytes (List.ne_nil_of_mem hw))
      (validMatchString_length w (hinv.valid w hw))

/-- C9. Index safety of `addGuess`: in a state of a game started by `newGame`
that is not complete, with a five-character answer and a guess of five letters,
the turn count is a row index of the public board (below six), all rows have
five cells, every position of the guess is below five and inside the answer,
and `addGuess` returns. In a state of the game with the turn count at six
`addGuess` panics, so the game must not be complete. -/
theorem addGuess_index_safe (upperCase : Char → Char) (answersFile : String)
    (guessLines : List String) (day : Int) (g0 g : game) (ws : List String) (w : String)
    (h0 : newGame upperCase answersFile guessLines day = some g0) (hr : Reachable g0 ws g)
    (hc : g.complete = false) (hv : validMatchString w = true)
    (ha : g.answer.data.length = 5) :
    0 ≤ g.currentTurn ∧ g.currentTurn < 6 ∧ g.currentTurn < (g.publicBoard.length : Int) ∧
    (∀ row ∈ g.publicBoard, row.length = 5) ∧
    (∀ i, i < w.data.length → i < 5 ∧ i < g.answer.data.length) ∧
    (∃ g1, addGuess g w = some g1) ∧
    (∀ ws6 g6, Reachable g0 ws6 g6 → g6.currentTurn = 6 → addGuess g6 w = none) := by
  have hinv := Reachable_inv upperCase answersFile guessLines day g0 g ws h0 hr
  have ha0 : 5 ≤ (bytesOf g0.answer).length := by
    have := length_le_bytesOf g.answer
    rw [hinv.answer] at this
    rw [hinv.answer] at ha
    omega
  have hlt := (Inv_not_won g0 g ws hinv hc).2
  have hw := validMatchString_length w hv
  obtain ⟨hb1, hb2, _, _⟩ := Inv_board g0 g ws hinv
  refine ⟨?_, ?_, ?_, hb2, ?_, Inv_progress g0 g ws w ha0 hinv hc hv, ?_⟩
  · rw [hinv.turn]
    omega
  · rw [hinv.turn]
    omega
  · rw [hinv.turn, hb1]
    omega
  · intro i hi
    omega
  · intro ws6 g6 hr6 h6
    have hinv6 := Reachable_inv upperCase answersFile guessLines day g0 g6 ws6 h0 hr6
    exact addGuess_none g6 w h6 (Inv_board g0 g6 ws6 hinv6).1
      (by intro hnil; rw [hnil] at hw; cases hw)

theorem ofNat_upper (n : Nat) (h1 : 97 ≤ n) (h2 : n ≤ 122) :
    (Char.ofNat (n - 32)).toNat = n - 32 := by
  interval_cases n <;> rfl

theorem unicodeToUpper_not_lower (upperCase : Char → Char)
    (htable : ∀ r : Char, 0x7F < r.toNat →
      ¬ ('a'.toNat ≤ (upperCase r).toNat ∧ (upperCase r).toNat ≤ 'z'.toNat))
    (r : Char) :
    ¬ ('a'.toNat ≤ (unicodeToUpper upperCase r).toNat ∧
      (unicodeToUpper upperCase r).toNat ≤ 'z'.toNat) := by
  have ea : 'a'.toNat = 97 := rfl
  have ez : 'z'.toNat = 122 := rfl
  have eA : 'A'.toNat = 65 := rfl
  unfold unicodeToUpper
  split_ifs with h1 h2
  · rw [ea, ez] at h2
    rw [ea, eA, ez, show 97 - 65 = 32 from rfl, ofNat_upper r.toNat h2.1 h2.2]
    omega
  · exact h2
  · exact htable r (by omega)

theorem validMatchString_ToUpper (upperCase : Char → Char)
    (htable : ∀ r : Char, 0x7F < r.toNat →
      ¬ ('a'.toNat ≤ (upperCase r).toNat ∧ (upperCase r).toNat ≤ 'z'.toNat))
    (s : String) :
    validMatchString (ToUpper upperCase s) = fiveLettersAZ (ToUpper upperCase s) := by
  unfold validMatchString fiveLettersAZ
  congr 1
  rw [Bool.eq_iff_iff, List.all_eq_true, List.all_eq_true]
  have hlow : ∀ c ∈ (ToUpper upperCase s).data, ¬ ('a'.toNat ≤ c.toNat ∧ c.toNat ≤ 'z'.toNat) := by
    intro c hc
    simp only [ToUpper, List.mem_map] at hc
    obtain ⟨r, _, rfl⟩ := hc
    exact unicodeToUpper_not_lower upperCase htable r
  constructor
  · intro h c hc
    have h1 := h c hc
    have h2 := hlow c hc
    simp only [isLetter] at h1
    simp only [Bool.decide_or, Bool.or_eq_true, decide_eq_true_eq] at h1 ⊢
    rcases h1 with h1 | h1
    · exact h1
    · exact absurd h1 h2
  · intro h c hc
    have h1 := h c hc
    simp only [isLetter]
    simp only [Bool.decide_or, Bool.or_eq_true, decide_eq_true_eq] at h1 ⊢
    exact Or.inl h1

/-- C3. Guess validation in the loop of `main`: in a game that is not complete,
with `n` the input line trimmed and upper-cased, a line whose `n` is not five
letters A-Z leaves the state as it is and writes the board followed by
`Please enter a 5 letter word`; a line whose `n` is five letters outside the
set of valid guesses leaves the state as it is and writes the board followed by
`Not in word list`; a line whose `n` is five letters of the set is handed to
`addGuess`, which returns (exactly when the answer has at least five bytes) and
then uses a turn. So whenever the loop body returns, it has used a turn exactly
when `n` is five letters A-Z and is in the set. The case table of the `unicode`
package is taken to map no rune outside ASCII to a lower-case ASCII letter. -/
theorem guess_validation (upperCase : Char → Char) (answersFile : String)
    (guessLines : List String) (day : Int) (g0 g : game) (ws : List String) (text : String)
    (htable : ∀ r : Char, 0x7F < r.toNat →
      ¬ ('a'.toNat ≤ (upperCase r).toNat ∧ (upperCase r).toNat ≤ 'z'.toNat))
    (h0 : newGame upperCase answersFile guessLines day = some g0) (hr : Reachable g0 ws g)
    (hc : g.complete = false) :
    ∃ n, n = ToUpper upperCase (TrimSpace text) ∧
      (fiveLettersAZ n = false →
        loopBody upperCase g text =
          some (g, "\x1bc" ++ print g ++ "Please enter a 5 letter word\n" ++ ">")) ∧
      ((fiveLettersAZ n = true ∧ n ∉ g.validGuesses) →
        loopBody upperCase g text =
          some (g, "\x1bc" ++ print g ++ "Not in word list\n" ++ ">")) ∧
      ((fiveLettersAZ n = true ∧ n ∈ g.validGuesses) →
        loopBody upperCase g text =
          (addGuess g n).map (fun g1 => (g1, "\x1bc" ++ print g1 ++ ">")) ∧
        ((∃ g1, addGuess g n = some g1) ↔ 5 ≤ (bytesOf g0.answer).length) ∧
        (∀ g1, addGuess g n = some g1 →
          g1.currentTurn = g.currentTurn + 1 ∧ g1.turnsRemaining = g.turnsRemaining - 1)) ∧
      (∀ g1 out, loopBody upperCase g text = some (g1, out) →
        (g1.currentTurn = g.currentTurn + 1 ↔
          (fiveLettersAZ n = true ∧ n ∈ g.validGuesses))) := by
  have hinv := Reachable_inv upperCase answersFile guessLines day g0 g ws h0 hr
  have hval := validMatchString_ToUpper upperCase htable (TrimSpace text)
  have hstep : ∀ g1, validMatchString (ToUpper upperCase (TrimSpace text)) = true →
      addGuess g (ToUpper upperCase (TrimSpace text)) = some g1 →
      g1.currentTurn = g.currentTurn + 1 ∧ g1.turnsRemaining = g.turnsRemaining - 1 := by
    intro g1 hv hadd
    have hinv1 := Inv_turn g0 g g1 ws _ hinv hc hv hadd
    constructor
    · rw [hinv1.turn, hinv.turn]
      simp
    · rw [hinv1.remaining, hinv.remaining]
      simp
      omega
  refine ⟨_, rfl, ?_, ?_, ?_, ?_⟩
  · intro hfive
    rw [hfive] at hval
    simp [loopBody, hval, printTurnWithError, clearBoard, prompt, String.append_assoc]
  · rintro ⟨hfive, hmem⟩
    rw [hfive] at hval
    simp [loopBody, hval, hmem, printTurnWithError, clearBoard, prompt, String.append_assoc]
  · rintro ⟨hfive, hmem⟩
    rw [hfive] at hval
    refine ⟨?_, ?_, fun g1 hadd => hstep g1 hval hadd⟩
    · simp only [loopBody, hval, hmem, Bool.not_true, decide_True, Bool.false_eq_true,
        if_false]
      cases addGuess g (ToUpper upperCase (TrimSpace text)) with
      | none => rfl
      | some g1 => simp [printTurn, clearBoard, prompt]
    · constructor
      · rintro ⟨g1, hadd⟩
        rw [← hinv.answer]
        exact addGuess_some_bytes g g1 _ hval hadd
      · intro ha
        exact Inv_progress g0 g ws _ ha hinv hc hval
  · intro g1 out hbody
    cases hfive : fiveLettersAZ (ToUpper upperCase (TrimSpace text)) with
    | false =>
      rw [hfive] at hval
      simp only [loopBody, hval, Bool.not_false, if_true, Option.some.injEq,
        Prod.mk.injEq] at hbody
      rw [← hbody.1]
      constructor
      · intro h
        omega
      · rintro ⟨h, _⟩
        cases h
    | true =>
      rw [hfive] at hval
      by_cases hmem : ToUpper upperCase (TrimSpace text) ∈ g.validGuesses
      · simp only [loopBody, hval, hmem, Bool.not_true, decide_True, Bool.false_eq_true,
          if_false] at hbody
        cases hadd : addGuess g (ToUpper upperCase (TrimSpace text)) with
        | none =>
          rw [hadd] at hbody
          cases hbody
        | some g2 =>
          rw [hadd] at hbody
          simp only [Option.some.injEq, Prod.mk.injEq] at hbody
          rw [← hbody.1]
          exact ⟨fun _ => ⟨rfl, hmem⟩, fun _ => (hstep g2 hval hadd).1⟩
      · simp only [loopBody, hval, hmem, Bool.not_true, decide_False, Bool.not_false,
          Bool.false_eq_true, if_false, if_true, Option.some.injEq, Prod.mk.injEq] at hbody
        rw [← hbody.1]
        constructor
        · intro h
          omega
        · rintro ⟨_, h⟩
          exact absurd h hmem

/-- The loop of `main` reaches only states of the game: what `mainLoop` returns
is what `addGuess` makes of the start on some five-letter guesses. -/
theorem mainLoop_reachable (upperCase : Char → Char) (g0 : game) :
    ∀ (stdin : List String) (g : game) (ws : List String), Reachable g0 ws g →
      ∀ g2 out, mainLoop upperCase g stdin = some (g2, out) → ∃ ws2, Reachable g0 ws2 g2 := by
  intro stdin
  induction stdin with
  | nil =>
    intro g ws hr g2 out h
    simp only [mainLoop, Option.some.injEq, Prod.mk.injEq] at h
    exact ⟨ws, h.1 ▸ hr⟩
  | cons text rest ih =>
    intro g ws hr g2 out h
    rw [mainLoop] at h
    split_ifs at h with hc
    · simp only [Option.some.injEq, Prod.mk.injEq] at h
      exact ⟨ws, h.1 ▸ hr⟩
    · cases hb : loopBody upperCase g text with
      | none => rw [hb] at h; cases h
      | some p =>
        obtain ⟨g1, out1⟩ := p
        rw [hb] at h
        simp only at h
        cases hm : mainLoop upperCase g1 rest with
        | none => rw [hm] at h; cases h
        | some q =>
          obtain ⟨g3, out3⟩ := q
          rw [hm] at h
          simp only [Option.some.injEq, Prod.mk.injEq] at h
          have hr1 : ∃ ws1, Reachable g0 ws1 g1 := by
            unfold loopBody at hb
            simp only at hb
            split_ifs at hb with hv hm1
            · simp only [Option.some.injEq, Prod.mk.injEq] at hb
              exact ⟨ws, hb.1 ▸ hr⟩
            · simp only [Option.some.injEq, Prod.mk.injEq] at hb
              exact ⟨ws, hb.1 ▸ hr⟩
            · cases hadd : addGuess g (ToUpper upperCase (TrimSpace text)) with
              | none => rw [hadd] at hb; cases hb
              | some g4 =>
                rw [hadd] at hb
                simp only [Option.some.injEq, Prod.mk.injEq] at hb
                refine ⟨_, hb.1 ▸ Reachable.turn hr (by simpa using hc) (by simpa using hv) hadd⟩
          obtain ⟨ws1, hr1⟩ := hr1
          obtain ⟨ws2, hr2⟩ := ih g1 ws1 hr1 g3 out3 hm
          exact ⟨ws2, h.1 ▸ hr2⟩

/-! ## The answer of a day -/

theorem bytesOf_append (a b : String) : bytesOf (a ++ b) = bytesOf a ++ bytesOf b := by
  simp [bytesOf, String.data_append, List.flatMap_append]

theorem answersText_length (eol : String) (heol : (bytesOf eol).length = 2) :
    ∀ words : List String, (∀ w ∈ words, (bytesOf w).length = 5) →
      (bytesOf (answersText eol words)).length = 7 * words.length := by
  intro words
  induction words with
  | nil => intro _; rfl
  | cons w rest ih =>
    intro h
    have h1 := h w (List.mem_cons_self _ _)
    have h2 := ih (fun x hx => h x (List.mem_cons_of_mem _ hx))
    simp only [answersText, bytesOf_append, List.length_append, List.length_cons, h1, heol, h2]
    omega

theorem answersText_drop (eol : String) (heol : (bytesOf eol).length = 2) :
    ∀ (words : List String) (d : Nat), (∀ w ∈ words, (bytesOf w).length = 5) →
      (bytesOf (answersText eol words)).drop (7 * d) =
        bytesOf (answersText eol (words.drop d)) := by
  intro words
  induction words with
  | nil =>
    intro d _
    simp [answersText, bytesOf]
  | cons w rest ih =>
    intro d h
    cases d with
    | zero => simp
    | succ d =>
      have h1 := h w (List.mem_cons_self _ _)
      have h2 := ih d (fun x hx => h x (List.mem_cons_of_mem _ hx))
      have hlen : (bytesOf w ++ bytesOf eol).length = 7 := by simp [h1, heol]
      have e : 7 * (d + 1) = (bytesOf w ++ bytesOf eol).length + 7 * d := by omega
      simp only [answersText, bytesOf_append, List.drop_succ_cons]
      rw [e, List.drop_append]
      exact h2

theorem unicodeToUpper_ascii (upperCase : Char → Char) (c : Char) (h : c.toNat < 128) :
    (unicodeToUpper upperCase c).toNat < 128 := by
  have ea : 'a'.toNat = 97 := rfl
  have ez : 'z'.toNat = 122 := rfl
  have eA : 'A'.toNat = 65 := rfl
  unfold unicodeToUpper
  split_ifs with h1 h2
  · rw [ea, ez] at h2
    rw [ea, eA, show 97 - 65 = 32 from rfl, ofNat_upper c.toNat h2.1 h2.2]
    omega
  · exact h
  · omega

/-- The amended C5. Answer lookup by day, on a file of five-letter words that are
each followed by carriage return and line feed: the file has seven bytes a
word, and when it is shorter than `2 ^ 63` bytes, for every day below the
number of words `answerForDay` returns the word of that index, upper-cased,
and it has five characters, which are five bytes. -/
theorem answerForDay_word (upperCase : Char → Char) (words : List String) (d : Nat)
    (hwords : ∀ w ∈ words, validMatchString w = true) (hd : d < words.length)
    (hsize : (bytesOf (answersText "\r\n" words)).length < 2 ^ 63) :
    (bytesOf (answersText "\r\n" words)).length = 7 * words.length ∧
    ∃ w, words[d]? = some w ∧
      answerForDay upperCase (answersText "\r\n" words) (d : Int) =
        some (ToUpper upperCase w) ∧
      (ToUpper upperCase w).data.length = 5 ∧ (bytesOf (ToUpper upperCase w)).length = 5 := by
  have heol : (bytesOf "\r\n").length = 2 := by decide
  have hfive : ∀ w ∈ words, (bytesOf w).length = 5 :=
    fun w hw => (validMatchString_bytes w (hwords w hw)).2
  have hlen := answersText_length "\r\n" heol words hfive
  have hwv := hwords _ (List.getElem_mem hd)
  have hw5 : (bytesOf words[d]).length = 5 := hfive _ (List.getElem_mem hd)
  have hwc : words[d].data.length = 5 := validMatchString_length _ hwv
  have hup : ∀ c ∈ (ToUpper upperCase words[d]).data, c.toNat < 128 := by
    intro c hc
    simp only [ToUpper, List.mem_map] at hc
    obtain ⟨r, hr, rfl⟩ := hc
    exact unicodeToUpper_ascii upperCase r (validMatchString_ascii _ hwv r hr)
  refine ⟨hlen, words[d], List.getElem?_eq_getElem hd, ?_, by simp [ToUpper, hwc], ?_⟩
  · have hoff : wrapInt ((d : Int) * 7) = ((7 * d : Nat) : Int) := by
      unfold wrapInt
      push_cast
      omega
    unfold answerForDay
    simp only [hoff, hlen, Int.toNat_ofNat]
    have c1 : ¬ ((((7 * d : Nat) : Int)) < 0 ∨
        ((7 * words.length : Nat) : Int) < ((7 * d : Nat) : Int)) := by
      omega
    have c2 : ¬ (((7 * words.length : Nat) : Int) ≤ ((7 * d : Nat) : Int)) := by omega
    rw [if_neg c1, if_neg c2, answersText_drop "\r\n" heol words d hfive,
      List.drop_eq_getElem_cons hd]
    simp only [answersText, bytesOf_append, List.append_assoc]
    rw [List.take_append_of_le_length (by omega), List.take_of_length_le (by omega)]
    simp only [hw5, Nat.sub_self, List.replicate_zero, List.append_nil]
    simp only [ToUpperBytes, ToUpper,
      rangeRunes_bytesOf words[d] (validMatchString_ascii _ hwv)]
  · rw [bytesOf_ascii _ hup, List.length_map]
    simp [ToUpper, hwc]

theorem answerForDay_word_witness :
    (bytesOf (answersText "\r\n" ["crane", "hello"])).length = 7 * ["crane", "hello"].length ∧
    ∃ w, ["crane", "hello"][1]? = some w ∧
      answerForDay id (answersText "\r\n" ["crane", "hello"]) ((1 : Nat) : Int) =
        some (ToUpper id w) ∧
      (ToUpper id w).data.length = 5 ∧ (bytesOf (ToUpper id w)).length = 5 :=
  answerForDay_word id ["crane", "hello"] 1 (by decide) (by decide) (by decide)

/-- The claim C5 as written fails on a file with a line feed after each word:
day 1 of `hello`, `world` is read from byte 7, inside the second word. -/
theorem answerForDay_linefeed :
    answerForDay id (answersText "\n" ["hello", "world"]) 1 = some "ORLD\n" ∧
      answerForDay id (answersText "\n" ["hello", "world"]) 1 ≠ some (ToUpper id "world") := by
  decide

/-- The file is read by bytes: after `crane` and a line ending of two runes of
two bytes each, day 1 starts at byte 7, inside the line ending. -/
theorem answerForDay_bytes :
    bytesOf "craneééhelloéé" =
        [99, 114, 97, 110, 101, 195, 169, 195, 169, 104, 101, 108, 108, 111, 195, 169, 195, 169] ∧
      answerForDay id "craneééhelloéé" 1 = some "éHEL" ∧
      answerForDay id "ıabcd" 0 = some "ıABC" := by
  decide

/-! ## The day index: theorems -/

theorem Date_eq (year : Int) (month day : Nat) :
    Date year month day = dayNumber year month day * 86400 := rfl

theorem isLeap_iff (year : Int) :
    isLeap year = true ↔ year % 4 = 0 ∧ (year % 100 ≠ 0 ∨ year % 400 = 0) := by
  simp [isLeap]

theorem dayNumber_next (y : Int) (m d : Nat) (hv : validDate y m d) :
    dayNumber (nextDay y m d).1 (nextDay y m d).2.1 (nextDay y m d).2.2 =
      dayNumber y m d + 1 := by
  obtain ⟨hm1, hm2, hd1, hd2⟩ := hv
  have hl := isLeap_iff y
  have hl1 := isLeap_iff (y + 1)
  unfold nextDay
  by_cases hlt : d < daysIn y m
  · rw [if_pos hlt]
    simp only [dayNumber]
    push_cast
    omega
  · rw [if_neg hlt]
    have hde : d = daysIn y m := by omega
    by_cases hm : m < 12
    · rw [if_pos hm]
      simp only [dayNumber, hde]
      by_cases hleap : isLeap y = true
      · interval_cases m <;> simp [daysIn, daysBefore, hleap] <;> omega
      · interval_cases m <;> simp [daysIn, daysBefore, hleap] <;> omega
    · rw [if_neg hm]
      have hm12 : m = 12 := by omega
      subst hm12
      simp only [dayNumber, hde, daysIn, daysBefore, daysSinceEpoch]
      by_cases hleap : isLeap y = true
      · have := hl.mp hleap
        simp [hleap]
        omega
      · have : ¬ (y % 4 = 0 ∧ (y % 100 ≠ 0 ∨ y % 400 = 0)) := fun h => hleap (hl.mpr h)
        simp [hleap]
        omega

theorem dayNumber_first : dayNumber 2021 6 19 = 737959 := by decide

/-- Within 106751 days after 19 June 2021 the day index is the difference of the
day counts: the duration fits in 64 bits of nanoseconds. -/
theorem daysSinceFirstWordle_eq (y : Int) (m d : Nat) (h1 : 737959 ≤ dayNumber y m d)
    (h2 : dayNumber y m d ≤ 737959 + 106751) :
    daysSinceFirstWordle y m d = dayNumber y m d - 737959 := by
  unfold daysSinceFirstWordle firstDay
  simp only [Date_eq, dayNumber_first, Sub]
  have e : (dayNumber y m d * 86400 - 737959 * 86400) * 1000000000 =
      (dayNumber y m d - 737959) * (24 * 3600 * 1000000000) := by ring
  rw [e, if_pos (by constructor <;> omega)]
  unfold hoursOver24
  exact Int.mul_tdiv_cancel _ (by decide)

theorem dayNumber_lower (y : Int) (m d : Nat) (hv : validDate y m d)
    (h : dateLe 2021 6 19 y m d) : 737959 ≤ dayNumber y m d := by
  obtain ⟨hm1, hm2, hd1, hd2⟩ := hv
  have hl := isLeap_iff y
  unfold dateLe at h
  unfold dayNumber daysSinceEpoch
  by_cases hleap : isLeap y = true
  · have := hl.mp hleap
    interval_cases m <;> simp [daysBefore, hleap] <;> omega
  · have : ¬ (y % 4 = 0 ∧ (y % 100 ≠ 0 ∨ y % 400 = 0)) := fun h => hleap (hl.mpr h)
    interval_cases m <;> simp [daysBefore, hleap] <;> omega

theorem dayNumber_upper (y : Int) (m d : Nat) (hv : validDate y m d)
    (h : dateLe y m d 2313 9 27) : dayNumber y m d ≤ 737959 + 106750 := by
  obtain ⟨hm1, hm2, hd1, hd2⟩ := hv
  have hl := isLeap_iff y
  unfold dateLe at h
  unfold dayNumber daysSinceEpoch
  by_cases hleap : isLeap y = true
  · have := hl.mp hleap
    interval_cases m <;> simp [daysIn, hleap] at hd2 <;> simp [daysBefore, hleap] <;> omega
  · have : ¬ (y % 4 = 0 ∧ (y % 100 ≠ 0 ∨ y % 400 = 0)) := fun h => hleap (hl.mpr h)
    interval_cases m <;> simp [daysIn, hleap] at hd2 <;> simp [daysBefore, hleap] <;> omega

/-- The amended C7. Default day index: the index of 19 June 2021 is 0, and for
every date of the calendar from 19 June 2021 to 27 September 2313 the index of
the following day is the index of the date plus 1. The index is computed from
the calendar date alone. -/
theorem daysSinceFirstWordle_next (y : Int) (m d : Nat) (hv : validDate y m d)
    (h1 : dateLe 2021 6 19 y m d) (h2 : dateLe y m d 2313 9 27) :
    daysSinceFirstWordle 2021 6 19 = 0 ∧
      daysSinceFirstWordle (nextDay y m d).1 (nextDay y m d).2.1 (nextDay y m d).2.2 =
        daysSinceFirstWordle y m d + 1 := by
  have hlo := dayNumber_lower y m d hv h1
  have hup := dayNumber_upper y m d hv h2
  have hnext := dayNumber_next y m d hv
  refine ⟨by decide, ?_⟩
  rw [daysSinceFirstWordle_eq y m d hlo (by omega),
    daysSinceFirstWordle_eq _ _ _ (by omega) (by omega), hnext]
  ring

theorem daysSinceFirstWordle_next_witness :
    daysSinceFirstWordle 2021 6 19 = 0 ∧
      daysSinceFirstWordle (nextDay 2024 2 28).1 (nextDay 2024 2 28).2.1
        (nextDay 2024 2 28).2.2 = daysSinceFirstWordle 2024 2 28 + 1 :=
  daysSinceFirstWordle_next 2024 2 28 (by decide) (by decide) (by decide)

/-- The claim C7 as written fails late in the year 2313: 28 September 2313 has
index 106751, and so has the day after it, for the duration between the two
times no longer fits in 64 bits of nanoseconds. -/
theorem daysSinceFirstWordle_stuck :
    nextDay 2313 9 28 = (2313, 9, 29) ∧ daysSinceFirstWordle 2313 9 28 = 106751 ∧
      daysSinceFirstWordle 2313 9 29 = 106751 ∧
      daysSinceFirstWordle 2313 9 29 ≠ daysSinceFirstWordle 2313 9 28 + 1 := by
  decide

/-! ## The sample game and the theorems at it -/

theorem addGuess_craneGame : addGuess craneGame "MAMMA" = some craneMamma := by decide

theorem addGuess_craneMamma : addGuess craneMamma "CRANE" = some craneWon := by decide

theorem Reachable_craneMamma : Reachable craneGame ["MAMMA"] craneMamma :=
  Reachable.turn Reachable.start rfl (by decide) addGuess_craneGame

theorem Reachable_craneWon : Reachable craneGame ["MAMMA", "CRANE"] craneWon :=
  Reachable.turn Reachable_craneMamma (by decide) (by decide) addGuess_craneMamma

theorem id_table (r : Char) (h : 0x7F < r.toNat) :
    ¬ ('a'.toNat ≤ (id r).toNat ∧ (id r).toNat ≤ 'z'.toNat) := by
  have ez : 'z'.toNat = 122 := rfl
  intro h2
  have h3 := h2.2
  simp only [id] at h3
  omega

theorem game_end_witness :
    ["MAMMA", "CRANE"].length ≤ 6 ∧
    (["MAMMA", "CRANE"] = [] → craneWon.complete = false ∧ craneWon.won = false) ∧
    (∀ ws1 w, ["MAMMA", "CRANE"] = ws1 ++ [w] →
      (craneWon.complete = true ↔ (w = craneGame.answer ∨ ["MAMMA", "CRANE"].length = 6)) ∧
      (craneWon.won = true ↔ w = craneGame.answer)) ∧
    (["MAMMA", "CRANE"].length = 6 → craneWon.complete = true) ∧
    ((craneWon.complete = true ∧ craneWon.won = false) ↔
      (["MAMMA", "CRANE"].length = 6 ∧ ∀ w ∈ ["MAMMA", "CRANE"], w ≠ craneGame.answer)) ∧
    (craneWon.complete = false → ∀ w, validMatchString w = true →
      ((∃ g1, addGuess craneWon w = some g1 ∧
          Reachable craneGame (["MAMMA", "CRANE"] ++ [w]) g1) ↔
        5 ≤ (bytesOf craneGame.answer).length)) :=
  game_end id "crane\r\nhello\r\n" ["crane", "mamma", "hello"] 0 craneGame craneWon
    ["MAMMA", "CRANE"] newGame_crane Reachable_craneWon

theorem turn_accounting_witness :
    craneWon.currentTurn + craneWon.turnsRemaining = 6 ∧ 0 ≤ craneWon.currentTurn ∧
    craneWon.currentTurn ≤ 6 ∧
    craneWon.currentTurn = (["MAMMA", "CRANE"].length : Int) ∧
    (craneWon.privateBoard.length : Int) = craneWon.currentTurn ∧
    (craneWon.won = true → craneWon.complete = true) ∧
    (craneWon.complete = true ↔ (craneWon.won = true ∨ craneWon.turnsRemaining = 0)) ∧
    (craneWon.won = true → ∃ N : Nat, 1 ≤ N ∧ N ≤ 6 ∧ N = ["MAMMA", "CRANE"].length ∧
      turnS craneWon = Itoa (N : Int) ∧
      printScore craneWon =
        "you won!\n" ++ ("Wordle " ++ Itoa craneWon.day ++ " " ++ Itoa (N : Int) ++ "/6\n\n") ++
          String.join (craneWon.privateBoard.map fun y => String.join y ++ "\n") ∧
      ["MAMMA", "CRANE"][N - 1]? = some craneGame.answer ∧
      ∀ j : Nat, j < N - 1 → ["MAMMA", "CRANE"][j]? ≠ some craneGame.answer) :=
  turn_accounting id "crane\r\nhello\r\n" ["crane", "mamma", "hello"] 0 craneGame craneWon
    ["MAMMA", "CRANE"] newGame_crane Reachable_craneWon

theorem addGuess_index_safe_witness :
    0 ≤ craneMamma.currentTurn ∧ craneMamma.currentTurn < 6 ∧
    craneMamma.currentTurn < (craneMamma.publicBoard.length : Int) ∧
    (∀ row ∈ craneMamma.publicBoard, row.length = 5) ∧
    (∀ i, i < "CRANE".data.length → i < 5 ∧ i < craneMamma.answer.data.length) ∧
    (∃ g1, addGuess craneMamma "CRANE" = some g1) ∧
    (∀ ws6 g6, Reachable craneGame ws6 g6 → g6.currentTurn = 6 →
      addGuess g6 "CRANE" = none) :=
  addGuess_index_safe id "crane\r\nhello\r\n" ["crane", "mamma", "hello"] 0 craneGame
    craneMamma ["MAMMA"] "CRANE" newGame_crane Reachable_craneMamma (by decide) (by decide)
    (by decide)

theorem guess_validation_witness :
    ∃ n, n = ToUpper id (TrimSpace "xx") ∧
      (fiveLettersAZ n = false →
        loopBody id craneMamma "xx" =
          some (craneMamma,
            "\x1bc" ++ print craneMamma ++ "Please enter a 5 letter word\n" ++ ">")) ∧
      ((fiveLettersAZ n = true ∧ n ∉ craneMamma.validGuesses) →
        loopBody id craneMamma "xx" =
          some (craneMamma, "\x1bc" ++ print craneMamma ++ "Not in word list\n" ++ ">")) ∧
      ((fiveLettersAZ n = true ∧ n ∈ craneMamma.validGuesses) →
        loopBody id craneMamma "xx" =
          (addGuess craneMamma n).map (fun g1 => (g1, "\x1bc" ++ print g1 ++ ">")) ∧
        ((∃ g1, addGuess craneMamma n = some g1) ↔ 5 ≤ (bytesOf craneGame.answer).length) ∧
        (∀ g1, addGuess craneMamma n = some g1 →
          g1.currentTurn = craneMamma.currentTurn + 1 ∧
          g1.turnsRemaining = craneMamma.turnsRemaining - 1)) ∧
      (∀ g1 out, loopBody id craneMamma "xx" = some (g1, out) →
        (g1.currentTurn = craneMamma.currentTurn + 1 ↔
          (fiveLettersAZ n = true ∧ n ∈ craneMamma.validGuesses))) :=
  guess_validation id "crane\r\nhello\r\n" ["crane", "mamma", "hello"] 0 craneGame craneMamma
    ["MAMMA"] "xx" id_table newGame_crane Reachable_craneMamma (by decide)

set_option maxRecDepth 100000 in
/-- The sample game on a line that is not five letters: the state stays, and the
text written is the board and the message. -/
theorem loopBody_short_line :
    loopBody id craneMamma " xx " = some (craneMamma,
      ("\x1bcWordle 0\n" ++
        " \x1b[37;100mM\x1b[0m \x1b[37;103mA\x1b[0m \x1b[37;100mM\x1b[0m \x1b[37;100mM\x1b[0m \x1b[37;103mA\x1b[0m\n" ++
        " \x1b[37;100m_\x1b[0m \x1b[37;100m_\x1b[0m \x1b[37;100m_\x1b[0m \x1b[37;100m_\x1b[0m \x1b[37;100m_\x1b[0m\n" ++
        " \x1b[37;100m_\x1b[0m \x1b[37;100m_\x1b[0m \x1b[37;100m_\x1b[0m \x1b[37;100m_\x1b[0m \x1b[37;100m_\x1b[0m\n" ++
        " \x1b[37;100m_\x1b[0m \x1b[37;100m_\x1b[0m \x1b[37;100m_\x1b[0m \x1b[37;100m_\x1b[0m \x1b[37;100m_\x1b[0m\n" ++
        " \x1b[37;100m_\x1b[0m \x1b[37;100m_\x1b[0m \x1b[37;100m_\x1b[0m \x1b[37;100m_\x1b[0m \x1b[37;100m_\x1b[0m\n" ++
        " \x1b[37;100m_\x1b[0m \x1b[37;100m_\x1b[0m \x1b[37;100m_\x1b[0m \x1b[37;100m_\x1b[0m \x1b[37;100m_\x1b[0m\n" ++
        "Please enter a 5 letter word\n>")) := by
  decide

set_option maxRecDepth 100000 in
/-- The sample game on five letters that are not in the word list: the state
stays, and the text written is the board and the message. -/
theorem loopBody_unknown_word :
    loopBody id craneMamma "abcde" = some (craneMamma,
      ("\x1bcWordle 0\n" ++
        " \x1b[37;100mM\x1b[0m \x1b[37;103mA\x1b[0m \x1b[37;100mM\x1b[0m \x1b[37;100mM\x1b[0m \x1b[37;103mA\x1b[0m\n" ++
        " \x1b[37;100m_\x1b[0m \x1b[37;100m_\x1b[0m \x1b[37;100m_\x1b[0m \x1b[37;100m_\x1b[0m \x1b[37;100m_\x1b[0m\n" ++
        " \x1b[37;100m_\x1b[0m \x1b[37;100m_\x1b[0m \x1b[37;100m_\x1b[0m \x1b[37;100m_\x1b[0m \x1b[37;100m_\x1b[0m\n" ++
        " \x1b[37;100m_\x1b[0m \x1b[37;100m_\x1b[0m \x1b[37;100m_\x1b[0m \x1b[37;100m_\x1b[0m \x1b[37;100m_\x1b[0m\n" ++
        " \x1b[37;100m_\x1b[0m \x1b[37;100m_\x1b[0m \x1b[37;100m_\x1b[0m \x1b[37;100m_\x1b[0m \x1b[37;100m_\x1b[0m\n" ++
        " \x1b[37;100m_\x1b[0m \x1b[37;100m_\x1b[0m \x1b[37;100m_\x1b[0m \x1b[37;100m_\x1b[0m \x1b[37;100m_\x1b[0m\n" ++
        "Not in word list\n>")) := by
  decide

/-- The sample game on a word of the list, in lower case between blanks: the
guess is the word in upper case, and a turn is used. -/
theorem loopBody_accepted :
    (loopBody id craneMamma " crane\t").map (fun p => p.1) = some craneWon ∧
      craneWon.currentTurn = craneMamma.currentTurn + 1 := by
  decide

theorem feedback_position_local_witness :
    (∃ t1 t2 row1 row2 cells1 cells2, addGuess craneGame "MAMMA" = some t1 ∧
      addGuess craneMamma "HAPPY" = some t2 ∧
      t1.privateBoard = craneGame.privateBoard ++ [row1] ∧
      t2.privateBoard = craneMamma.privateBoard ++ [row2] ∧
      t1.publicBoard[craneGame.currentTurn.toNat]? = some cells1 ∧
      t2.publicBoard[craneMamma.currentTurn.toNat]? = some cells2 ∧
      row1[1]? = row2[1]? ∧ cells1[1]? = cells2[1]?) ∧
    ((addGuess craneGame "MAMMA").map (fun t => t.privateBoard) =
        some [[blackSquare, yellowSquare, blackSquare, blackSquare, yellowSquare]] ∧
      craneGame.answer = "CRANE" ∧ List.count 'A' "CRANE".data = 1 ∧
      List.count 'A' "MAMMA".data = 2 ∧
      "MAMMA".data[1]? = some 'A' ∧ "MAMMA".data[4]? = some 'A' ∧
      "CRANE".data[1]? ≠ some 'A' ∧ "CRANE".data[4]? ≠ some 'A') :=
  feedback_position_local craneGame craneMamma "MAMMA" "HAPPY" blankRow blankRow 1
    (by decide) (by decide) (by decide) (by decide) (by decide) (by decide) (by decide)
    (by decide) (by decide) (by decide) (by decide) (by decide) (by decide)
    (fun _ => Iff.rfl)

/-- The sample game, played by `main`: a rejected line, a line outside the word
list, two guesses. -/
theorem mainLoop_crane :
    (mainLoop id craneGame ["xx", "abcde", " mamma", "crane", "hello"]).map (fun p => p.1) =
      some craneWon := by
  decide

/-- A game with fewer than six guesses, the last of them not the answer, on an
answer of at least five bytes, takes one more guess. -/
theorem Reachable_more (upperCase : Char → Char) (answersFile : String)
    (guessLines : List String) (day : Int) (g0 g : game) (ws : List String) (w : String)
    (h0 : newGame upperCase answersFile guessLines day = some g0) (hr : Reachable g0 ws g)
    (ha : 5 ≤ (bytesOf g0.answer).length)
    (hlen : ws.length < 6) (hlast : ws.getLast? ≠ some g0.answer)
    (hv : validMatchString w = true) : ∃ g1, Reachable g0 (ws ++ [w]) g1 := by
  have hinv := Reachable_inv upperCase answersFile guessLines day g0 g ws h0 hr
  have hc : g.complete = false := by
    cases hc : g.complete with
    | false => rfl
    | true =>
      rcases hinv.complete.mp hc with h | h
      · exact absurd ((Inv_won_iff g0 g ws hinv).mp h) hlast
      · omega
  obtain ⟨g1, hadd⟩ := Inv_progress g0 g ws w ha hinv hc hv
  exact ⟨g1, Reachable.turn hr hc hv hadd⟩

/-- The sample game can be lost: after six guesses `MAMMA` the turn count is six,
the game is complete and not won, and one more call of `addGuess` panics. -/
theorem crane_six_guesses :
    ∃ g6, Reachable craneGame ["MAMMA", "MAMMA", "MAMMA", "MAMMA", "MAMMA", "MAMMA"] g6 ∧
      g6.currentTurn = 6 ∧ g6.complete = true ∧ g6.won = false ∧
      addGuess g6 "CRANE" = none := by
  have step := fun (g : game) (ws : List String) (hr : Reachable craneGame ws g)
      (hlen : ws.length < 6) (hlast : ws.getLast? ≠ some craneGame.answer) =>
    Reachable_more id "crane\r\nhello\r\n" ["crane", "mamma", "hello"] 0 craneGame g ws "MAMMA"
      newGame_crane hr (by decide) hlen hlast (by decide)
  obtain ⟨g1, h1⟩ := step _ _ Reachable.start (by decide) (by decide)
  obtain ⟨g2, h2⟩ := step _ _ h1 (by decide) (by decide)
  obtain ⟨g3, h3⟩ := step _ _ h2 (by decide) (by decide)
  obtain ⟨g4, h4⟩ := step _ _ h3 (by decide) (by decide)
  obtain ⟨g5, h5⟩ := step _ _ h4 (by decide) (by decide)
  obtain ⟨g6, h6⟩ := step _ _ h5 (by decide) (by decide)
  have hinv := Reachable_inv id "crane\r\nhello\r\n" ["crane", "mamma", "hello"] 0 craneGame g6 _
    newGame_crane h6
  have hwon : g6.won = false := by
    cases hw : g6.won with
    | false => rfl
    | true =>
      have := (Inv_won_iff craneGame g6 _ hinv).mp hw
      revert this
      decide
  refine ⟨g6, h6, ?_, hinv.complete.mpr (Or.inr rfl), hwon, ?_⟩
  · rw [hinv.turn]
    rfl
  · exact addGuess_none g6 "CRANE" (by rw [hinv.turn]; rfl) (Inv_board craneGame g6 _ hinv).1
      (by decide)

/-- An answers file that is not ASCII can give an answer of fewer than five
bytes: the five bytes read are the dotless i and `abc`, upper-cased to four
bytes, and `addGuess` on a five-letter guess then panics. -/
theorem short_answer :
    (newGame dotlessTable "ıabcd" [] 0).map (fun g => g.answer) = some "IABC" ∧
      bytesOf "IABC" = [73, 65, 66, 67] ∧
      (newGame dotlessTable "ıabcd" [] 0).bind (fun g => addGuess g "CRANE") = none := by
  decide

/-- The sample game, won at the second guess: what `printScore` writes. -/
theorem printScore_crane :
    printScore craneWon = "you won!\nWordle 0 2/6\n\n⬛🟨⬛⬛🟨\n🟩🟩🟩🟩🟩\n" ∧
      printScore craneMamma =
        "you lose!\nAnswer was CRANE\nWordle 0 X/6\n\n⬛🟨⬛⬛🟨\n" := by
  decide

end Termle
